import Mathlib

/-!
MatAlg: a shallow embedding of `matrix.h` and `matrixmisc.h`

Modelling conventions.

* `uint` / `std::size_t` loop counters and sizes are natural numbers; every counter stays
  below its bound, so no wrap-around can occur in the loops embedded here.
* `double` is modelled by exact rationals (`ℚ`): no rounding, no NaN, no infinities.
  Where a statement turns on the comparison of a NaN with itself, the functions are
  embedded a second time, in the namespace `IEEE`, over elements that may be NaN or
  infinite.
* `int` is a 32-bit two's complement integer.  Converting a `double` to `int` truncates
  toward zero and is undefined when the truncated value is not representable.
* Storage is `std::vector<std::vector<double>>`, modelled as a list of lists.
* Unchecked element access (`Matrix::operator[]` followed by pointer indexing, or
  `matrix[i][j]` on the member vector) is undefined behaviour outside the stored rows and
  columns.  Computations that may hit undefined behaviour live in `Option`, where `none`
  stands for undefined behaviour.
* Exceptions are the constructors of `Exn` (`std::out_of_range`, `std::range_error`,
  `std::logic_error`); their message strings are not modelled.  A function that may throw
  returns `Res`; a member function that mutates its receiver and may throw returns `Mut`,
  which records the receiver at the moment of the throw.  Functions whose body contains no
  `throw` return an `Option`.
* `Matrix<Type>(...)` in the free operators is read as `Matrix(...)`.
* The narrowing of a `std::size_t` size to `uint` in the literal constructor is the
  identity: an initializer list has fewer than `2^32` rows and columns.
* The argument of the compound matrix operators is a value distinct from the receiver.
-/

namespace MatAlg

/-- The standard exceptions thrown by the library. -/
inductive Exn where
  | out_of_range
  | range_error
  | logic_error
  deriving DecidableEq, Repr

/-- Outcome of a function that may return a value, throw, or run into undefined behaviour. -/
inductive Res (α : Type) where
  | ok (a : α)
  | throw (e : Exn)
  | ub
  deriving DecidableEq, Repr

/-- Lift a computation that can only succeed or be undefined. -/
def Res.ofUB {α : Type} : Option α → Res α
  | some a => Res.ok a
  | none => Res.ub

/-- The class `Matrix`: its three data members. -/
structure Matrix where
  rows : Nat
  columns : Nat
  matrix : List (List ℚ)
  deriving DecidableEq, Repr

/-- Outcome of a mutating member function: the receiver afterwards, or the exception together
with the receiver as the throw left it, or undefined behaviour. -/
inductive Mut where
  | done (self : Matrix)
  | threw (e : Exn) (self : Matrix)
  | ub
  deriving DecidableEq, Repr

/-- Lift the loop part of a mutating member function. -/
def Mut.ofUB : Option Matrix → Mut
  | some m => Mut.done m
  | none => Mut.ub

/-- Counting loop `for (i = 0; i < n; i++) body`, threading the mutable state `s`;
the body may be undefined. -/
def forUpTo {σ : Type} (n : Nat) (body : Nat → σ → Option σ) (s : σ) : Option σ :=
  match n with
  | 0 => some s
  | k + 1 => (forUpTo k body s).bind (body k)

/-- Counting loop whose body never fails (only `push_back`s). -/
def loop {σ : Type} (n : Nat) (body : Nat → σ → σ) (s : σ) : σ :=
  match n with
  | 0 => s
  | k + 1 => body k (loop k body s)

/-- Counting loop without mutable state whose body may `return v` (`some v`) or fall
through to the next iteration (`none`); the body may be undefined. -/
def forRet {ρ : Type} (n : Nat) (body : Nat → Option (Option ρ)) : Option (Option ρ) :=
  match n with
  | 0 => some none
  | k + 1 =>
    match forRet k body with
    | some none => body k
    | other => other

/-- Smallest and largest `int`. -/
def INT_MIN : Int := -2147483648

def INT_MAX : Int := 2147483647

/-- Conversion `double → int`: truncation toward zero, undefined when out of range. -/
def toInt (x : ℚ) : Option Int :=
  let t := x.num.tdiv (x.den : Int)
  if INT_MIN ≤ t ∧ t ≤ INT_MAX then some t else none

/-- The invariant of the representation: `rows` rows, each of `columns` elements. -/
def Matrix.WF (m : Matrix) : Prop :=
  m.matrix.length = m.rows ∧ ∀ row ∈ m.matrix, row.length = m.columns

instance (m : Matrix) : Decidable m.WF := by
  unfold Matrix.WF; infer_instance

/-- Unchecked read `m[row][column]`. -/
def Matrix.subscript (m : Matrix) (row column : Nat) : Option ℚ :=
  match m.matrix[row]? with
  | none => none
  | some r => r[column]?

/-- Unchecked write `m[row][column] = value`. -/
def Matrix.subscriptSet (m : Matrix) (row column : Nat) (value : ℚ) : Option Matrix :=
  match m.matrix[row]? with
  | none => none
  | some r =>
    if column < r.length then
      some { m with matrix := m.matrix.set row (r.set column value) }
    else none

/-- `Matrix::initMatrixValue`, run on a receiver whose storage is then cleared. -/
def Matrix.initMatrixValue (row column : Nat) (value : ℚ) : Matrix :=
  { rows := row
    columns := column
    matrix := loop row (fun _ matrix =>
      matrix ++ [loop column (fun _ r => r ++ [value]) []]) [] }

/-- Constructor `Matrix(row, column, value)`. -/
def Matrix.mk3 (row column : Nat) (value : ℚ) : Matrix :=
  Matrix.initMatrixValue row column value

/-- Copy constructor `Matrix(const Matrix &r)`. -/
def Matrix.copy (r : Matrix) : Option Matrix :=
  (forUpTo r.rows (fun row matrix => do
      let matrixRow ← forUpTo r.columns (fun column matrixRow => do
        let x ← r.subscript row column
        pure (matrixRow ++ [x])) []
      pure (matrix ++ [matrixRow])) []).map
    (fun matrix => { rows := r.rows, columns := r.columns, matrix := matrix })

/-- `Matrix::rangeCheck`. -/
def Matrix.rangeCheck (m : Matrix) (row column : Nat) : Res Unit :=
  if row ≥ m.rows then Res.throw Exn.out_of_range
  else if column ≥ m.columns then Res.throw Exn.out_of_range
  else Res.ok ()

/-- `Matrix::at`. -/
def Matrix.at (m : Matrix) (row column : Nat) : Res ℚ :=
  match m.rangeCheck row column with
  | Res.ok _ => Res.ofUB (m.subscript row column)
  | Res.throw e => Res.throw e
  | Res.ub => Res.ub

/-- `Matrix::assign`. -/
def Matrix.assign (m : Matrix) (row column : Nat) (value : ℚ) : Mut :=
  match m.rangeCheck row column with
  | Res.ok _ => Mut.ofUB (m.subscriptSet row column value)
  | Res.throw e => Mut.threw e m
  | Res.ub => Mut.ub

/-- The free `operator*(const Matrix &l, const Matrix &r)`; the accumulator `num` is an
`int`, so `num += x` converts `num + x` back to `int`. -/
def operatorMul (l r : Matrix) : Res Matrix :=
  if l.columns ≠ r.rows then Res.throw Exn.range_error
  else
    Res.ofUB <|
      forUpTo l.rows (fun row result =>
        forUpTo r.columns (fun rColumn result => do
          let num ← forUpTo r.rows (fun rRow (num : Int) => do
            let a ← l.subscript row rRow
            let b ← r.subscript rRow rColumn
            toInt ((num : ℚ) + a * b)) 0
          result.subscriptSet row rColumn (num : ℚ)) result)
        (Matrix.mk3 l.rows r.columns 0)

/-- Body shared by the four compound scalar operators `Matrix::operator+=`, `-=`, `/=`,
`*=` `(const double &r)`: the outer counter runs to `columns`, the inner one to `rows`, and
the element updated is `matrix[i][j]`. -/
def Matrix.scalarAssign (op : ℚ → ℚ → ℚ) (self : Matrix) (r : ℚ) : Option Matrix :=
  forUpTo self.columns (fun i self =>
    forUpTo self.rows (fun j self => do
      let x ← self.subscript i j
      self.subscriptSet i j (op x r)) self) self

/-- `void Matrix::operator+=(const double &r)`. -/
def Matrix.operatorAddAssignScalar (self : Matrix) (r : ℚ) : Option Matrix :=
  Matrix.scalarAssign (fun x y => x + y) self r

/-- `void Matrix::operator-=(const double &r)`. -/
def Matrix.operatorSubAssignScalar (self : Matrix) (r : ℚ) : Option Matrix :=
  Matrix.scalarAssign (fun x y => x - y) self r

/-- `void Matrix::operator/=(const double &r)`. -/
def Matrix.operatorDivAssignScalar (self : Matrix) (r : ℚ) : Option Matrix :=
  Matrix.scalarAssign (fun x y => x / y) self r

/-- `void Matrix::operator*=(const double &r)`. -/
def Matrix.operatorMulAssignScalar (self : Matrix) (r : ℚ) : Option Matrix :=
  Matrix.scalarAssign (fun x y => x * y) self r

/-- Body shared by `Matrix::operator+=(const Matrix &r)` and `Matrix::operator-=`: the shape
test comes first and throws before anything is written. -/
def Matrix.matrixAssign (op : ℚ → ℚ → ℚ) (self r : Matrix) : Mut :=
  if self.columns ≠ r.columns ∨ self.rows ≠ r.rows then Mut.threw Exn.range_error self
  else
    Mut.ofUB <|
      forUpTo self.columns (fun i self =>
        forUpTo self.rows (fun j self => do
          let x ← self.subscript i j
          let y ← r.subscript i j
          self.subscriptSet i j (op x y)) self) self

/-- `void Matrix::operator+=(const Matrix &r)`. -/
def Matrix.operatorAddAssign (self r : Matrix) : Mut :=
  Matrix.matrixAssign (fun x y => x + y) self r

/-- `void Matrix::operator-=(const Matrix &r)`. -/
def Matrix.operatorSubAssign (self r : Matrix) : Mut :=
  Matrix.matrixAssign (fun x y => x - y) self r

/-- The free `operator+(const Matrix &l, const Matrix &r)`. -/
def operatorAdd (l r : Matrix) : Res Matrix :=
  if l.columns ≠ r.columns ∨ l.rows ≠ r.rows then Res.throw Exn.range_error
  else
    Res.ofUB <|
      forUpTo l.columns (fun i out =>
        forUpTo l.rows (fun j out => do
          let x ← l.subscript i j
          let y ← r.subscript i j
          out.subscriptSet i j (x + y)) out)
        (Matrix.mk3 l.rows l.columns 0)

/-- The free `operator==(const Matrix &l, const Matrix &r)`. -/
def operatorEq (l r : Matrix) : Option Bool :=
  if l.columns ≠ r.columns then some false
  else if l.rows ≠ r.rows then some false
  else
    (forRet l.rows (fun row =>
      forRet l.columns (fun column => do
        let x ← l.subscript row column
        let y ← r.subscript row column
        if x ≠ y then pure (some false) else pure none))).map
      (fun ret => ret.getD true)

/-- The free `operator!=(const Matrix &l, const Matrix &r)`. -/
def operatorNe (l r : Matrix) : Option Bool :=
  if l.columns ≠ r.columns then some true
  else if l.rows ≠ r.rows then some true
  else
    (forRet l.rows (fun row =>
      forRet l.columns (fun column => do
        let x ← l.subscript row column
        let y ← r.subscript row column
        if x ≠ y then pure (some true) else pure none))).map
      (fun ret => ret.getD false)

/-- Body shared by the free scalar operators `operator+`, `-`, `/`, `*`
`(const Matrix &l, const double &r)`: copy `l`, then update every `matrix[i][j]` with the
outer counter running to `rows` and the inner one to `columns`. -/
def scalarOp (op : ℚ → ℚ → ℚ) (l : Matrix) (r : ℚ) : Option Matrix := do
  let matrix ← Matrix.copy l
  forUpTo matrix.rows (fun i matrix =>
    forUpTo matrix.columns (fun j matrix => do
      let x ← matrix.subscript i j
      matrix.subscriptSet i j (op x r)) matrix) matrix

/-- The free `operator+(const Matrix &l, const double &r)`. -/
def operatorAddScalar (l : Matrix) (r : ℚ) : Option Matrix :=
  scalarOp (fun x y => x + y) l r

/-- The free `operator-(const Matrix &l, const double &r)`. -/
def operatorSubScalar (l : Matrix) (r : ℚ) : Option Matrix :=
  scalarOp (fun x y => x - y) l r

/-- The free `operator/(const Matrix &l, const double &r)`. -/
def operatorDivScalar (l : Matrix) (r : ℚ) : Option Matrix :=
  scalarOp (fun x y => x / y) l r

/-- The free `operator*(const Matrix &l, const double &r)`. -/
def operatorMulScalar (l : Matrix) (r : ℚ) : Option Matrix :=
  scalarOp (fun x y => x * y) l r

/-- `Matrix eye(const uint dimension)`. -/
def eye (dimension : Nat) : Option Matrix :=
  forUpTo dimension (fun i eyeMatrix => eyeMatrix.subscriptSet i i 1)
    (Matrix.mk3 dimension dimension 0)

/-- `Matrix transpose(const Matrix &matrix)`. -/
def transpose (matrix : Matrix) : Option Matrix :=
  forUpTo matrix.rows (fun row result =>
    forUpTo matrix.columns (fun column result => do
      let x ← matrix.subscript row column
      result.subscriptSet column row x) result)
    (Matrix.mk3 matrix.columns matrix.rows 0)

/-- The loop `for (auto row : initList) if (row.size() != columnSize) throw ...` of
`Matrix::checkInitListSize`. -/
def Matrix.checkRows (columnSize : Nat) : List (List ℚ) → Res Unit
  | [] => Res.ok ()
  | row :: rest =>
    if row.length ≠ columnSize then Res.throw Exn.range_error
    else Matrix.checkRows columnSize rest

/-- `Matrix::checkInitListSize`; `initList.begin()->size()` dereferences the end iterator
of an empty list, which is undefined. -/
def Matrix.checkInitListSize (initList : List (List ℚ)) : Res Unit :=
  match initList with
  | [] => Res.ub
  | first :: _ => Matrix.checkRows first.length initList

/-- Constructor `Matrix(const std::initializer_list<std::initializer_list<double>> &)`:
after the check, every `row` is pushed onto the storage. -/
def Matrix.ofInitList (initList : List (List ℚ)) : Res Matrix :=
  match Matrix.checkInitListSize initList with
  | Res.throw e => Res.throw e
  | Res.ub => Res.ub
  | Res.ok _ =>
    match initList with
    | [] => Res.ub
    | first :: _ =>
      Res.ok
        { rows := initList.length
          columns := first.length
          matrix := initList.foldl (fun matrix row => matrix ++ [row]) [] }

/-- `void Matrix::operator*=(const Matrix &r)` for an argument `r` that is not the receiver
itself: shape test, copy `l` of the receiver, re-initialisation of the receiver when its
shape is not that of the product, then the product loops writing `matrix[row][rColumn]`
with the `int` accumulator `num`. -/
def Matrix.operatorMulAssign (self r : Matrix) : Mut :=
  if self.columns ≠ r.rows then Mut.threw Exn.range_error self
  else
    match Matrix.copy self with
    | none => Mut.ub
    | some l =>
      Mut.ofUB <|
        forUpTo l.rows (fun row self =>
          forUpTo r.columns (fun rColumn self => do
            let num ← forUpTo r.rows (fun rRow (num : Int) => do
              let a ← l.subscript row rRow
              let b ← r.subscript rRow rColumn
              toInt ((num : ℚ) + a * b)) 0
            self.subscriptSet row rColumn (num : ℚ)) self)
          (if self.rows ≠ l.rows ∨ self.columns ≠ r.columns then
            Matrix.initMatrixValue l.rows r.columns 0
          else self)

/-- `elementMul(const Matrix &first, const Matrix &second)`, with `Type = double`. -/
def elementMul (first second : Matrix) : Option ℚ :=
  forUpTo first.rows (fun x result =>
    forUpTo first.columns (fun y result => do
      let a ← first.subscript x y
      let b ← second.subscript x y
      pure (result + a * b)) result) 0

/-- `double dotProduct(const Matrix &l, const Matrix &r)`. -/
def dotProduct (l r : Matrix) : Res ℚ :=
  if l.columns = r.columns ∧ l.columns > l.rows then
    Res.ofUB <|
      forUpTo l.columns (fun column product => do
        let a ← l.subscript 0 column
        let b ← r.subscript 0 column
        pure (product + a * b)) 0
  else if l.rows = r.rows ∧ l.rows > l.columns then
    Res.ofUB <|
      forUpTo l.rows (fun row product => do
        let a ← l.subscript row 0
        let b ← r.subscript row 0
        pure (product + a * b)) 0
  else Res.throw Exn.logic_error

/-! ## Notions used in the statements -/

/-- The element at `(row, column)` where it is stored, `0` elsewhere. -/
def Matrix.entry (m : Matrix) (row column : Nat) : ℚ :=
  (m.subscript row column).getD 0

/-- The receiver after `receiver = <expression>`, for the outcome of the expression. -/
def Mut.ofRes (self : Matrix) : Res Matrix → Mut
  | Res.ok m => Mut.done m
  | Res.throw e => Mut.threw e self
  | Res.ub => Mut.ub

/-- The innermost loop of both matrix products: the `int` accumulator for the element
`(row, rColumn)`. -/
def accumulate (l r : Matrix) (row rColumn : Nat) : Option Int :=
  forUpTo r.rows (fun rRow (num : Int) => do
    let a ← l.subscript row rRow
    let b ← r.subscript rRow rColumn
    toInt ((num : ℚ) + a * b)) 0

/-- The two outer loops of both matrix products, writing into `result`. -/
def productLoops (l r result : Matrix) : Option Matrix :=
  forUpTo l.rows (fun row result =>
    forUpTo r.columns (fun rColumn result => do
      let num ← accumulate l r row rColumn
      result.subscriptSet row rColumn (num : ℚ)) result) result

/-! ## Elements that may be NaN

`operator==` and `operator!=` compare two elements with the `!=` of `double`, which is
true of a NaN against itself.  The namespace `IEEE` embeds the functions whose claim turns
on that comparison, `transpose` and `operator==` with the constructor and the unchecked
accesses they use, over elements that may be NaN or infinite.  The loops are those of the
functions above. -/

namespace IEEE

/-- A `double` as `!=` sees it: a finite value, an infinity, or NaN. -/
inductive Double where
  | fin (q : ℚ)
  | pinf
  | ninf
  | nan
  deriving DecidableEq, Repr

/-- The comparison `x != y` of two `double`s: true when either is NaN, otherwise true
exactly when the two differ. -/
def Double.ne : Double → Double → Bool
  | Double.nan, _ => true
  | _, Double.nan => true
  | x, y => decide (x ≠ y)

/-- The class `Matrix`: its three data members. -/
structure Matrix where
  rows : Nat
  columns : Nat
  matrix : List (List Double)
  deriving DecidableEq, Repr

/-- The invariant of the representation: `rows` rows, each of `columns` elements. -/
def Matrix.WF (m : Matrix) : Prop :=
  m.matrix.length = m.rows ∧ ∀ row ∈ m.matrix, row.length = m.columns

instance (m : Matrix) : Decidable m.WF := by
  unfold Matrix.WF; infer_instance

/-- Unchecked read `m[row][column]`. -/
def Matrix.subscript (m : Matrix) (row column : Nat) : Option Double :=
  match m.matrix[row]? with
  | none => none
  | some r => r[column]?

/-- Unchecked write `m[row][column] = value`. -/
def Matrix.subscriptSet (m : Matrix) (row column : Nat) (value : Double) : Option Matrix :=
  match m.matrix[row]? with
  | none => none
  | some r =>
    if column < r.length then
      some { m with matrix := m.matrix.set row (r.set column value) }
    else none

/-- `Matrix::initMatrixValue`, run on a receiver whose storage is then cleared. -/
def Matrix.initMatrixValue (row column : Nat) (value : Double) : Matrix :=
  { rows := row
    columns := column
    matrix := loop row (fun _ matrix =>
      matrix ++ [loop column (fun _ r => r ++ [value]) []]) [] }

/-- Constructor `Matrix(row, column, value)`. -/
def Matrix.mk3 (row column : Nat) (value : Double) : Matrix :=
  Matrix.initMatrixValue row column value

/-- The free `operator==(const Matrix &l, const Matrix &r)`, elements compared with the
`!=` of `double`. -/
def operatorEq (l r : Matrix) : Option Bool :=
  if l.columns ≠ r.columns then some false
  else if l.rows ≠ r.rows then some false
  else
    (forRet l.rows (fun row =>
      forRet l.columns (fun column => do
        let x ← l.subscript row column
        let y ← r.subscript row column
        if Double.ne x y then pure (some false) else pure none))).map
      (fun ret => ret.getD true)

/-- `Matrix transpose(const Matrix &matrix)`. -/
def transpose (matrix : Matrix) : Option Matrix :=
  forUpTo matrix.rows (fun row result =>
    forUpTo matrix.columns (fun column result => do
      let x ← matrix.subscript row column
      result.subscriptSet column row x) result)
    (Matrix.mk3 matrix.columns matrix.rows (Double.fin 0))

end IEEE

/-! ## Loop rules -/

theorem forUpTo_inv {σ : Type} (Inv : Nat → σ → Prop) (n : Nat) (body : Nat → σ → Option σ)
    (s : σ) (h0 : Inv 0 s)
    (hstep : ∀ i t, i < n → Inv i t → ∃ t', body i t = some t' ∧ Inv (i + 1) t') :
    ∃ t, forUpTo n body s = some t ∧ Inv n t := by
  induction n with
  | zero => exact ⟨s, rfl, h0⟩
  | succ k ih =>
    obtain ⟨t, ht, hinv⟩ := ih (fun i t hi h => hstep i t (Nat.lt_succ_of_lt hi) h)
    obtain ⟨t', ht', hinv'⟩ := hstep k t (Nat.lt_succ_self k) hinv
    exact ⟨t', by simp [forUpTo, ht, ht'], hinv'⟩

theorem loop_push_back {α : Type} (n : Nat) (a : α) :
    loop n (fun _ xs => xs ++ [a]) [] = List.replicate n a := by
  induction n with
  | zero => rfl
  | succ k ih => simp [loop, ih, List.replicate_succ']

/-! ## Storage -/

theorem mk3_matrix (row column : Nat) (value : ℚ) :
    (Matrix.mk3 row column value).matrix = List.replicate row (List.replicate column value) := by
  simp [Matrix.mk3, Matrix.initMatrixValue, loop_push_back]

theorem mk3_WF (row column : Nat) (value : ℚ) : (Matrix.mk3 row column value).WF := by
  refine ⟨?_, ?_⟩
  · simp [mk3_matrix]; rfl
  · intro r hr
    rw [mk3_matrix] at hr
    rw [List.eq_of_mem_replicate hr]
    simp; rfl

theorem subscript_isSome (m : Matrix) (h : m.WF) (i j : Nat) (hi : i < m.rows)
    (hj : j < m.columns) : ∃ x, m.subscript i j = some x := by
  obtain ⟨hlen, hrow⟩ := h
  have hi' : i < m.matrix.length := by omega
  have hr : (m.matrix[i]).length = m.columns := hrow _ (List.getElem_mem _)
  have hj' : j < (m.matrix[i]).length := by omega
  exact ⟨(m.matrix[i])[j], by simp [Matrix.subscript, List.getElem?_eq_getElem, hi', hj']⟩

theorem subscriptSet_spec (m : Matrix) (h : m.WF) (i j : Nat) (v : ℚ) (hi : i < m.rows)
    (hj : j < m.columns) :
    ∃ m', m.subscriptSet i j v = some m' ∧ m'.WF ∧ m'.rows = m.rows ∧
      m'.columns = m.columns ∧
      ∀ a b, m'.subscript a b = if a = i ∧ b = j then some v else m.subscript a b := by
  obtain ⟨hlen, hrow⟩ := h
  have hi' : i < m.matrix.length := by omega
  have hr : (m.matrix[i]).length = m.columns := hrow _ (List.getElem_mem _)
  have hj' : j < (m.matrix[i]).length := by omega
  refine ⟨{ m with matrix := m.matrix.set i ((m.matrix[i]).set j v) }, ?_, ⟨?_, ?_⟩, rfl, rfl, ?_⟩
  · simp [Matrix.subscriptSet, List.getElem?_eq_getElem, hi', hj']
  · simpa using hlen
  · intro r hr'
    rcases List.mem_or_eq_of_mem_set hr' with h1 | h1
    · exact hrow r h1
    · simp [h1, hr]
  · intro a b
    by_cases ha : a = i
    · subst ha
      by_cases hb : b = j
      · subst hb
        simp [Matrix.subscript, List.getElem?_set, hi', hj']
      · have hb' : ¬ j = b := fun h => hb h.symm
        simp [Matrix.subscript, List.getElem?_set, hi', hb, hb', List.getElem?_eq_getElem]
    · have ha' : ¬ i = a := fun h => ha h.symm
      simp [Matrix.subscript, List.getElem?_set, ha, ha']

theorem matrix_ext (m m' : Matrix) (h : m.WF) (h' : m'.WF) (hr : m.rows = m'.rows)
    (hc : m.columns = m'.columns)
    (hsub : ∀ i j, i < m.rows → j < m.columns → m.subscript i j = m'.subscript i j) :
    m = m' := by
  obtain ⟨rows, columns, matrix⟩ := m
  obtain ⟨rows', columns', matrix'⟩ := m'
  obtain ⟨hlen, hrow⟩ := h
  obtain ⟨hlen', hrow'⟩ := h'
  simp only at hr hc hlen hlen' hrow hrow' hsub
  subst hr hc
  have : matrix = matrix' := by
    apply List.ext_getElem (by omega)
    intro i h1 h2
    have e1 : (matrix[i]).length = columns := hrow _ (List.getElem_mem _)
    have e2 : (matrix'[i]).length = columns := hrow' _ (List.getElem_mem _)
    apply List.ext_getElem (by omega)
    intro j h3 h4
    have := hsub i j (by omega) (by omega)
    simpa [Matrix.subscript, List.getElem?_eq_getElem, h1, h2, h3, h4] using this
  rw [this]

/-! ## Transpose -/

theorem transpose_correct (M : Matrix) (h : M.WF) :
    ∃ R, transpose M = some R ∧ R.WF ∧ R.rows = M.columns ∧ R.columns = M.rows ∧
      ∀ i j, i < M.rows → j < M.columns → R.subscript j i = M.subscript i j := by
  have key := forUpTo_inv
    (fun i (res : Matrix) => res.WF ∧ res.rows = M.columns ∧ res.columns = M.rows ∧
      ∀ a b, a < i → b < M.columns → res.subscript b a = M.subscript a b)
    M.rows
    (fun row result =>
      forUpTo M.columns (fun column result => do
        let x ← M.subscript row column
        result.subscriptSet column row x) result)
    (Matrix.mk3 M.columns M.rows 0)
    ⟨mk3_WF _ _ _, rfl, rfl, fun a b ha _ => absurd ha (Nat.not_lt_zero a)⟩
    (by
      intro i t hi ⟨tWF, tr, tc, tsub⟩
      have inner := forUpTo_inv
        (fun j (res : Matrix) => res.WF ∧ res.rows = M.columns ∧ res.columns = M.rows ∧
          ∀ a b, b < M.columns → (a < i ∨ (a = i ∧ b < j)) →
            res.subscript b a = M.subscript a b)
        M.columns
        (fun column result => do
          let x ← M.subscript i column
          result.subscriptSet column i x)
        t
        ⟨tWF, tr, tc, fun a b hb hab => by
          rcases hab with ha | ⟨_, hb0⟩
          · exact tsub a b ha hb
          · exact absurd hb0 (Nat.not_lt_zero b)⟩
        (by
          intro j u hj ⟨uWF, ur, uc, usub⟩
          obtain ⟨x, hx⟩ := subscript_isSome M h i j hi hj
          obtain ⟨u', hu', uWF', ur', uc', usub'⟩ :=
            subscriptSet_spec u uWF j i x (by omega) (by omega)
          refine ⟨u', by simp [hx, hu'], uWF', by omega, by omega, ?_⟩
          intro a b hb hab
          rw [usub']
          by_cases hc : b = j ∧ a = i
          · obtain ⟨rfl, rfl⟩ := hc
            simp [hx]
          · rw [if_neg hc]
            apply usub a b hb
            rcases hab with ha | ⟨ha, hbj⟩
            · exact Or.inl ha
            · refine Or.inr ⟨ha, ?_⟩
              have : b ≠ j := fun e => hc ⟨e, ha⟩
              omega)
      obtain ⟨u, hu, uWF, ur, uc, usub⟩ := inner
      refine ⟨u, hu, uWF, ur, uc, ?_⟩
      intro a b ha hb
      apply usub a b hb
      by_cases hai : a = i
      · exact Or.inr ⟨hai, hb⟩
      · exact Or.inl (by omega))
  obtain ⟨R, hR, RWF, Rr, Rc, Rsub⟩ := key
  exact ⟨R, hR, RWF, Rr, Rc, fun i j hi hj => Rsub i j hi hj⟩

/-- C7: for every matrix `M` (satisfying the representation invariant), `transpose M`
returns a matrix `R` (no exception is possible by its type, and no undefined behaviour
occurs) of shape `(M.columns, M.rows)` that is again rectangular, and for all `i < M.rows`,
`j < M.columns` the read `R[j][i]` yields the very value `M[i][j]`.  `M` is an immutable
argument, so it is unchanged. -/
theorem transpose_spec (M : Matrix) (h : M.WF) :
    ∃ R, transpose M = some R ∧ R.WF ∧ R.rows = M.columns ∧ R.columns = M.rows ∧
      ∀ i j, i < M.rows → j < M.columns →
        ∃ x, M.subscript i j = some x ∧ R.subscript j i = some x := by
  obtain ⟨R, hR, RWF, Rr, Rc, Rsub⟩ := transpose_correct M h
  refine ⟨R, hR, RWF, Rr, Rc, ?_⟩
  intro i j hi hj
  obtain ⟨x, hx⟩ := subscript_isSome M h i j hi hj
  exact ⟨x, hx, by rw [Rsub i j hi hj, hx]⟩

theorem transpose_spec_witness :
    (Matrix.mk 2 3 [[1, 2, 3], [4, 5, 6]]).WF ∧
    ∃ R, transpose (Matrix.mk 2 3 [[1, 2, 3], [4, 5, 6]]) = some R ∧ R.WF ∧
      R.rows = (Matrix.mk 2 3 [[1, 2, 3], [4, 5, 6]]).columns ∧
      R.columns = (Matrix.mk 2 3 [[1, 2, 3], [4, 5, 6]]).rows ∧
      ∀ i j, i < (Matrix.mk 2 3 [[1, 2, 3], [4, 5, 6]]).rows →
        j < (Matrix.mk 2 3 [[1, 2, 3], [4, 5, 6]]).columns →
        ∃ x, (Matrix.mk 2 3 [[1, 2, 3], [4, 5, 6]]).subscript i j = some x ∧
          R.subscript j i = some x :=
  ⟨by decide, transpose_spec _ (by decide)⟩

/-! ## Equality -/

theorem forRet_total {ρ : Type} (n : Nat) (body : Nat → Option (Option ρ))
    (h : ∀ i, i < n → ∃ o, body i = some o) : ∃ o, forRet n body = some o := by
  induction n with
  | zero => exact ⟨none, rfl⟩
  | succ k ih =>
    obtain ⟨o, ho⟩ := ih (fun i hi => h i (Nat.lt_succ_of_lt hi))
    cases o with
    | none => simpa [forRet, ho] using h k (Nat.lt_succ_self k)
    | some v => exact ⟨some v, by simp [forRet, ho]⟩

theorem forRet_none_iff {ρ : Type} (n : Nat) (body : Nat → Option (Option ρ))
    (h : ∀ i, i < n → ∃ o, body i = some o) :
    forRet n body = some none ↔ ∀ i, i < n → body i = some none := by
  induction n with
  | zero => simp [forRet]
  | succ k ih =>
    have ih' := ih (fun i hi => h i (Nat.lt_succ_of_lt hi))
    obtain ⟨o, ho⟩ := forRet_total k body (fun i hi => h i (Nat.lt_succ_of_lt hi))
    cases o with
    | none =>
      have hall := ih'.mp ho
      simp only [forRet, ho]
      constructor
      · intro hk i hi
        by_cases e : i = k
        · rw [e]; exact hk
        · exact hall i (by omega)
      · intro hk
        exact hk k (Nat.lt_succ_self k)
    | some v =>
      simp only [forRet, ho]
      constructor
      · intro hk
        simp at hk
      · intro hk
        have := ih'.mpr (fun i hi => hk i (Nat.lt_succ_of_lt hi))
        rw [ho] at this
        simp at this

theorem forRet_some_val {ρ : Type} (n : Nat) (body : Nat → Option (Option ρ)) (v : ρ)
    (h : forRet n body = some (some v)) : ∃ i, i < n ∧ body i = some (some v) := by
  induction n with
  | zero => simp [forRet] at h
  | succ k ih =>
    simp only [forRet] at h
    split at h
    · exact ⟨k, Nat.lt_succ_self k, h⟩
    · obtain ⟨i, hi, hb⟩ := ih h
      exact ⟨i, Nat.lt_succ_of_lt hi, hb⟩

/-- The nested comparison loops shared by `operator==` and `operator!=`, returning `v` at
the first differing element. -/
theorem compare_loops (v : Bool) (l r : Matrix) (hl : l.WF) (hr : r.WF)
    (hrows : l.rows = r.rows) (hcols : l.columns = r.columns) :
    ∃ o, forRet l.rows (fun row =>
        forRet l.columns (fun column => do
          let x ← l.subscript row column
          let y ← r.subscript row column
          if x ≠ y then pure (some v) else pure none)) = some o ∧
      (o = none ∨ o = some v) ∧
      (o = none ↔ ∀ i j, i < l.rows → j < l.columns → l.subscript i j = r.subscript i j) := by
  have hbody : ∀ i j, i < l.rows → j < l.columns →
      ∃ o, (do
          let x ← l.subscript i j
          let y ← r.subscript i j
          if x ≠ y then pure (some v) else pure none : Option (Option Bool)) = some o ∧
        (o = none ∨ o = some v) ∧ (o = none ↔ l.subscript i j = r.subscript i j) := by
    intro i j hi hj
    obtain ⟨x, hx⟩ := subscript_isSome l hl i j hi hj
    obtain ⟨y, hy⟩ := subscript_isSome r hr i j (by omega) (by omega)
    by_cases e : x = y
    · exact ⟨none, by simp [hx, hy, e], Or.inl rfl, by simp [hx, hy, e]⟩
    · exact ⟨some v, by simp [hx, hy, e], Or.inr rfl, by simp [hx, hy, e]⟩
  have hinner : ∀ i, i < l.rows →
      ∃ o, forRet l.columns (fun column => do
          let x ← l.subscript i column
          let y ← r.subscript i column
          if x ≠ y then pure (some v) else pure none) = some o ∧
        (o = none ∨ o = some v) ∧
        (o = none ↔ ∀ j, j < l.columns → l.subscript i j = r.subscript i j) := by
    intro i hi
    have htot : ∀ j, j < l.columns → ∃ o, (do
          let x ← l.subscript i j
          let y ← r.subscript i j
          if x ≠ y then pure (some v) else pure none : Option (Option Bool)) = some o :=
      fun j hj => let ⟨o, ho, _⟩ := hbody i j hi hj; ⟨o, ho⟩
    obtain ⟨o, ho⟩ := forRet_total _ _ htot
    refine ⟨o, ho, ?_, ?_⟩
    · cases o with
      | none => exact Or.inl rfl
      | some w =>
        obtain ⟨j, hj, hb⟩ := forRet_some_val _ _ w ho
        obtain ⟨o', ho', hv, _⟩ := hbody i j hi hj
        rw [ho'] at hb
        rcases hv with hv | hv
        · rw [hv] at hb; simp at hb
        · rw [hv] at hb; exact Or.inr (Option.some.inj hb).symm
    · have hiff := forRet_none_iff _ _ htot
      constructor
      · intro ho' j hj
        rw [ho'] at ho
        have hb := hiff.mp ho j hj
        obtain ⟨o', hb', _, hb''⟩ := hbody i j hi hj
        rw [hb'] at hb
        exact hb''.mp (Option.some.inj hb)
      · intro hall
        have : forRet l.columns (fun column => do
            let x ← l.subscript i column
            let y ← r.subscript i column
            if x ≠ y then pure (some v) else pure none) = some none := by
          apply hiff.mpr
          intro j hj
          obtain ⟨o', hb', _, hb''⟩ := hbody i j hi hj
          rw [hb', hb''.mpr (hall j hj)]
        rw [ho] at this
        exact Option.some.inj this
  have htot : ∀ i, i < l.rows → ∃ o, forRet l.columns (fun column => do
        let x ← l.subscript i column
        let y ← r.subscript i column
        if x ≠ y then pure (some v) else pure none) = some o :=
    fun i hi => let ⟨o, ho, _⟩ := hinner i hi; ⟨o, ho⟩
  obtain ⟨o, ho⟩ := forRet_total _ _ htot
  refine ⟨o, ho, ?_, ?_⟩
  · cases o with
    | none => exact Or.inl rfl
    | some w =>
      obtain ⟨i, hi, hb⟩ := forRet_some_val _ _ w ho
      obtain ⟨o', ho', hv, _⟩ := hinner i hi
      rw [ho'] at hb
      rcases hv with hv | hv
      · rw [hv] at hb; simp at hb
      · rw [hv] at hb; exact Or.inr (Option.some.inj hb).symm
  · have hiff := forRet_none_iff _ _ htot
    constructor
    · intro ho' i j hi hj
      rw [ho'] at ho
      have hb := hiff.mp ho i hi
      obtain ⟨o', hb', _, hb''⟩ := hinner i hi
      rw [hb'] at hb
      exact hb''.mp (Option.some.inj hb) j hj
    · intro hall
      have : forRet l.rows (fun row =>
          forRet l.columns (fun column => do
            let x ← l.subscript row column
            let y ← r.subscript row column
            if x ≠ y then pure (some v) else pure none)) = some none := by
        apply hiff.mpr
        intro i hi
        obtain ⟨o', hb', _, hb''⟩ := hinner i hi
        rw [hb', hb''.mpr (fun j hj => hall i j hi hj)]
      rw [ho] at this
      exact Option.some.inj this

theorem operatorEq_correct (l r : Matrix) (hl : l.WF) (hr : r.WF) :
    ∃ b, operatorEq l r = some b ∧ operatorNe l r = some (!b) ∧
      (b = true ↔ l.rows = r.rows ∧ l.columns = r.columns ∧
        ∀ i j, i < l.rows → j < l.columns → l.subscript i j = r.subscript i j) := by
  by_cases hc : l.columns = r.columns
  · by_cases hrw : l.rows = r.rows
    · obtain ⟨o, ho, hv, hiff⟩ := compare_loops false l r hl hr hrw hc
      obtain ⟨o', ho', hv', hiff'⟩ := compare_loops true l r hl hr hrw hc
      have e1 : operatorEq l r = some (o.getD true) := by
        unfold operatorEq
        rw [if_neg (fun h => h hc), if_neg (fun h => h hrw), ho]
        rfl
      have e2 : operatorNe l r = some (o'.getD false) := by
        unfold operatorNe
        rw [if_neg (fun h => h hc), if_neg (fun h => h hrw), ho']
        rfl
      refine ⟨o.getD true, e1, ?_, ?_⟩
      · rw [e2]
        rcases hv with hv | hv
        · have : o' = none := hiff'.mpr (hiff.mp hv)
          rw [hv, this]
          rfl
        · have hne : o' ≠ none := fun e => by
            have := hiff.mpr (hiff'.mp e)
            rw [hv] at this
            simp at this
          have : o' = some true := by
            rcases hv' with h1 | h1
            · exact absurd h1 hne
            · exact h1
          rw [hv, this]
          rfl
      · rcases hv with hv | hv
        · constructor
          · intro _
            exact ⟨hrw, hc, hiff.mp hv⟩
          · intro _
            rw [hv]
            rfl
        · constructor
          · intro h1
            rw [hv] at h1
            simp at h1
          · intro h1
            have := hiff.mpr h1.2.2
            rw [hv] at this
            simp at this
    · exact ⟨false, by simp [operatorEq, hc, hrw], by simp [operatorNe, hc, hrw],
        by simp [hrw]⟩
  · exact ⟨false, by simp [operatorEq, hc], by simp [operatorNe, hc], by simp [hc]⟩

/-- C9: `at(row, column)` throws `out_of_range` exactly when `row >= rows` or
`column >= columns`, and so does `assign(row, column, v)`, which then leaves the receiver
as it was; neither throws anything else.  On a matrix satisfying the representation
invariant with both indices in bounds, `assign(row, column, v)` succeeds and a following
`at(row, column)` returns exactly `v`. -/
theorem at_assign_spec (M : Matrix) (row column : Nat) (v : ℚ) :
    (Matrix.at M row column = Res.throw Exn.out_of_range ↔
      (row ≥ M.rows ∨ column ≥ M.columns)) ∧
    ((∃ e, Matrix.at M row column = Res.throw e) ↔ (row ≥ M.rows ∨ column ≥ M.columns)) ∧
    (M.assign row column v = Mut.threw Exn.out_of_range M ↔
      (row ≥ M.rows ∨ column ≥ M.columns)) ∧
    ((∃ e s, M.assign row column v = Mut.threw e s) ↔
      (row ≥ M.rows ∨ column ≥ M.columns)) ∧
    (M.WF → row < M.rows → column < M.columns →
      ∃ M', M.assign row column v = Mut.done M' ∧ Matrix.at M' row column = Res.ok v) := by
  by_cases hr : row ≥ M.rows
  · have e1 : Matrix.at M row column = Res.throw Exn.out_of_range := by
      simp [Matrix.at, Matrix.rangeCheck, hr]
    have e2 : M.assign row column v = Mut.threw Exn.out_of_range M := by
      simp [Matrix.assign, Matrix.rangeCheck, hr]
    refine ⟨by simp [e1, hr], by simp [e1, hr], by simp [e2, hr], by simp [e2, hr], ?_⟩
    intro _ h _
    omega
  · by_cases hc : column ≥ M.columns
    · have e1 : Matrix.at M row column = Res.throw Exn.out_of_range := by
        simp [Matrix.at, Matrix.rangeCheck, hr, hc]
      have e2 : M.assign row column v = Mut.threw Exn.out_of_range M := by
        simp [Matrix.assign, Matrix.rangeCheck, hr, hc]
      refine ⟨by simp [e1, hc], by simp [e1, hc], by simp [e2, hc], by simp [e2, hc], ?_⟩
      intro _ _ h
      omega
    · have e1 : Matrix.at M row column = Res.ofUB (M.subscript row column) := by
        simp [Matrix.at, Matrix.rangeCheck, hr, hc]
      have e2 : M.assign row column v = Mut.ofUB (M.subscriptSet row column v) := by
        simp [Matrix.assign, Matrix.rangeCheck, hr, hc]
      have n1 : ∀ e, Res.ofUB (M.subscript row column) ≠ Res.throw e := by
        intro e
        cases M.subscript row column <;> simp [Res.ofUB]
      have n2 : ∀ e s, Mut.ofUB (M.subscriptSet row column v) ≠ Mut.threw e s := by
        intro e s
        cases M.subscriptSet row column v <;> simp [Mut.ofUB]
      have hno : ¬ (row ≥ M.rows ∨ column ≥ M.columns) := by omega
      refine ⟨?_, ?_, ?_, ?_, ?_⟩
      · rw [e1]; exact ⟨fun h => absurd h (n1 _), fun h => absurd h hno⟩
      · rw [e1]; exact ⟨fun ⟨e, h⟩ => absurd h (n1 e), fun h => absurd h hno⟩
      · rw [e2]; exact ⟨fun h => absurd h (n2 _ _), fun h => absurd h hno⟩
      · rw [e2]; exact ⟨fun ⟨e, s, h⟩ => absurd h (n2 e s), fun h => absurd h hno⟩
      · intro hWF hrow hcol
        obtain ⟨M', hM', _, hr', hc', hsub⟩ := subscriptSet_spec M hWF row column v hrow hcol
        refine ⟨M', by rw [e2, hM']; rfl, ?_⟩
        have h1 : ¬ row ≥ M'.rows := by omega
        have h2 : ¬ column ≥ M'.columns := by omega
        simp [Matrix.at, Matrix.rangeCheck, h1, h2, hsub, Res.ofUB]

theorem at_assign_spec_witness :
    ∃ M', (Matrix.mk 2 3 [[1, 2, 3], [4, 5, 6]]).assign 1 2 (7 / 2) = Mut.done M' ∧
      Matrix.at M' 1 2 = Res.ok (7 / 2) :=
  (at_assign_spec (Matrix.mk 2 3 [[1, 2, 3], [4, 5, 6]]) 1 2 (7 / 2)).2.2.2.2
    (by decide) (by decide) (by decide)

/-! ## Shape checks of the matrix operators -/

theorem ofUB_ne_throw {α : Type} (x : Option α) (e : Exn) : Res.ofUB x ≠ Res.throw e := by
  cases x <;> simp [Res.ofUB]

theorem mut_ofUB_ne_threw (x : Option Matrix) (e : Exn) (s : Matrix) :
    Mut.ofUB x ≠ Mut.threw e s := by
  cases x <;> simp [Mut.ofUB]

theorem matrixAssign_throws (op : ℚ → ℚ → ℚ) (A B : Matrix) :
    (Matrix.matrixAssign op A B = Mut.threw Exn.range_error A ↔
      (A.rows ≠ B.rows ∨ A.columns ≠ B.columns)) ∧
    ((∃ e s, Matrix.matrixAssign op A B = Mut.threw e s) ↔
      (A.rows ≠ B.rows ∨ A.columns ≠ B.columns)) := by
  by_cases h : A.columns ≠ B.columns ∨ A.rows ≠ B.rows
  · have e : Matrix.matrixAssign op A B = Mut.threw Exn.range_error A := by
      unfold Matrix.matrixAssign
      rw [if_pos h]
    have h' : A.rows ≠ B.rows ∨ A.columns ≠ B.columns := h.symm
    exact ⟨⟨fun _ => h', fun _ => e⟩, ⟨fun _ => h', fun _ => ⟨_, _, e⟩⟩⟩
  · have h' : ¬ (A.rows ≠ B.rows ∨ A.columns ≠ B.columns) := fun c => h c.symm
    unfold Matrix.matrixAssign
    rw [if_neg h]
    exact ⟨⟨fun c => absurd c (mut_ofUB_ne_threw _ _ _), fun c => absurd c h'⟩,
      ⟨fun ⟨e, s, c⟩ => absurd c (mut_ofUB_ne_threw _ e s), fun c => absurd c h'⟩⟩

/-- C10: `A += B` and `A -= B` throw `range_error` exactly when the shapes differ (row
counts or column counts unequal); they throw nothing else, and the receiver recorded at the
throw is `A` itself, unchanged. -/
theorem operatorAddAssign_throws (A B : Matrix) :
    (A.operatorAddAssign B = Mut.threw Exn.range_error A ↔
      (A.rows ≠ B.rows ∨ A.columns ≠ B.columns)) ∧
    ((∃ e s, A.operatorAddAssign B = Mut.threw e s) ↔
      (A.rows ≠ B.rows ∨ A.columns ≠ B.columns)) ∧
    (A.operatorSubAssign B = Mut.threw Exn.range_error A ↔
      (A.rows ≠ B.rows ∨ A.columns ≠ B.columns)) ∧
    ((∃ e s, A.operatorSubAssign B = Mut.threw e s) ↔
      (A.rows ≠ B.rows ∨ A.columns ≠ B.columns)) :=
  ⟨(matrixAssign_throws _ A B).1, (matrixAssign_throws _ A B).2,
    (matrixAssign_throws _ A B).1, (matrixAssign_throws _ A B).2⟩

/-- C2: the free `l * r` throws `range_error` exactly when `l.columns != r.rows`, and it
throws nothing else; `[[1,2],[3,4]] * [[1],[2],[3]]` throws (2 columns against 3 rows). -/
theorem operatorMul_throws (l r : Matrix) :
    (operatorMul l r = Res.throw Exn.range_error ↔ l.columns ≠ r.rows) ∧
    ((∃ e, operatorMul l r = Res.throw e) ↔ l.columns ≠ r.rows) ∧
    operatorMul (Matrix.mk 2 2 [[1, 2], [3, 4]]) (Matrix.mk 3 1 [[1], [2], [3]]) =
      Res.throw Exn.range_error := by
  refine ⟨?_, ?_, by decide!⟩
  · by_cases h : l.columns ≠ r.rows
    · have e : operatorMul l r = Res.throw Exn.range_error := by
        unfold operatorMul
        rw [if_pos h]
      exact ⟨fun _ => h, fun _ => e⟩
    · unfold operatorMul
      rw [if_neg h]
      exact ⟨fun c => absurd c (ofUB_ne_throw _ _), fun c => absurd c h⟩
  · by_cases h : l.columns ≠ r.rows
    · have e : operatorMul l r = Res.throw Exn.range_error := by
        unfold operatorMul
        rw [if_pos h]
      exact ⟨fun _ => h, fun _ => ⟨_, e⟩⟩
    · unfold operatorMul
      rw [if_neg h]
      exact ⟨fun ⟨e, c⟩ => absurd c (ofUB_ne_throw _ e), fun c => absurd c h⟩

/-! ## Evaluations -/

/-- C1: the accumulator of the free product is an `int`, so the running sum is truncated:
`[[1/2]] * [[1]]` yields `[[0]]` and `[[3/2, 3/2]] * [[1], [1]]` yields `[[2]]`, not
`[[1/2]]` and `[[3]]`.  On integer entries such as `[[1,2],[3,4]] * [[5,6],[7,8]]` the
result `[[19,22],[43,50]]` is the mathematical product. -/
theorem operatorMul_truncates :
    operatorMul (Matrix.mk 1 1 [[1 / 2]]) (Matrix.mk 1 1 [[1]]) =
      Res.ok (Matrix.mk 1 1 [[0]]) ∧
    operatorMul (Matrix.mk 1 2 [[3 / 2, 3 / 2]]) (Matrix.mk 2 1 [[1], [1]]) =
      Res.ok (Matrix.mk 1 1 [[2]]) ∧
    operatorMul (Matrix.mk 2 2 [[1, 2], [3, 4]]) (Matrix.mk 2 2 [[5, 6], [7, 8]]) =
      Res.ok (Matrix.mk 2 2 [[19, 22], [43, 50]]) := by
  decide!

/-- C3: the loops of the free `operator+` run the first index to `columns` and the second
to `rows`, so on the `1 x 2` operands `[[1,2]] + [[3,4]]` (and on the `2 x 1` operands
`[[1],[2]] + [[3],[4]]`) they index outside the storage: undefined behaviour instead of
the sum.  On square operands such as `[[1,2],[3,4]] + [[5,6],[7,8]]` the sum
`[[6,8],[10,12]]` is returned. -/
theorem operatorAdd_nonsquare :
    operatorAdd (Matrix.mk 1 2 [[1, 2]]) (Matrix.mk 1 2 [[3, 4]]) = Res.ub ∧
    operatorAdd (Matrix.mk 2 1 [[1], [2]]) (Matrix.mk 2 1 [[3], [4]]) = Res.ub ∧
    operatorAdd (Matrix.mk 2 2 [[1, 2], [3, 4]]) (Matrix.mk 2 2 [[5, 6], [7, 8]]) =
      Res.ok (Matrix.mk 2 2 [[6, 8], [10, 12]]) := by
  decide!

/-- C4: the loops of the compound scalar operators run the first index to `columns` and
the second to `rows`, so on the `1 x 2` matrix `[[1,2]]` each of `+= 1`, `-= 1`, `*= 2`,
`/= 2` indexes outside the storage (undefined behaviour), while the free operators return
`[[2,3]]`, `[[0,1]]`, `[[2,4]]`, `[[1/2,1]]`. -/
theorem scalarAssign_nonsquare :
    (Matrix.mk 1 2 [[1, 2]]).operatorAddAssignScalar 1 = none ∧
    (Matrix.mk 1 2 [[1, 2]]).operatorSubAssignScalar 1 = none ∧
    (Matrix.mk 1 2 [[1, 2]]).operatorMulAssignScalar 2 = none ∧
    (Matrix.mk 1 2 [[1, 2]]).operatorDivAssignScalar 2 = none ∧
    operatorAddScalar (Matrix.mk 1 2 [[1, 2]]) 1 = some (Matrix.mk 1 2 [[2, 3]]) ∧
    operatorSubScalar (Matrix.mk 1 2 [[1, 2]]) 1 = some (Matrix.mk 1 2 [[0, 1]]) ∧
    operatorMulScalar (Matrix.mk 1 2 [[1, 2]]) 2 = some (Matrix.mk 1 2 [[2, 4]]) ∧
    operatorDivScalar (Matrix.mk 1 2 [[1, 2]]) 2 = some (Matrix.mk 1 2 [[1 / 2, 1]]) := by
  decide!

/-- C5: with `A = [[3/2, 0], [0, 1]]`, `eye(2)` is `[[1,0],[0,1]]`, both `A * eye(2)` and
`eye(2) * A` are `[[1,0],[0,1]]` (the `int` accumulator truncates `3/2`), and `operator==`
of that product with `A` returns `false`. -/
theorem operatorMul_eye_truncates :
    eye 2 = some (Matrix.mk 2 2 [[1, 0], [0, 1]]) ∧
    operatorMul (Matrix.mk 2 2 [[3 / 2, 0], [0, 1]]) (Matrix.mk 2 2 [[1, 0], [0, 1]]) =
      Res.ok (Matrix.mk 2 2 [[1, 0], [0, 1]]) ∧
    operatorMul (Matrix.mk 2 2 [[1, 0], [0, 1]]) (Matrix.mk 2 2 [[3 / 2, 0], [0, 1]]) =
      Res.ok (Matrix.mk 2 2 [[1, 0], [0, 1]]) ∧
    operatorEq (Matrix.mk 2 2 [[1, 0], [0, 1]]) (Matrix.mk 2 2 [[3 / 2, 0], [0, 1]]) =
      some false := by
  decide!

/-! ## Constructors -/

theorem mk3_subscript (row column : Nat) (value : ℚ) (i j : Nat) :
    (Matrix.mk3 row column value).subscript i j =
      if i < row ∧ j < column then some value else none := by
  unfold Matrix.subscript
  rw [mk3_matrix]
  by_cases hi : i < row
  · by_cases hj : j < column
    · simp [List.getElem?_replicate, hi, hj]
    · simp [List.getElem?_replicate, hi, hj]
  · simp [List.getElem?_replicate, hi]

/-- C12: for all `r > 0`, `c > 0` and every `v`, the fill constructor `Matrix(r, c, v)`
yields a matrix with `rows == r`, `columns == c`, and `at(i, j)` returns `v` for every
`0 <= i < r`, `0 <= j < c`. -/
theorem fill_constructor_at (r c : Nat) (v : ℚ) (hr : 0 < r) (hc : 0 < c) :
    (Matrix.mk3 r c v).rows = r ∧ (Matrix.mk3 r c v).columns = c ∧
    (∃ i j, i < r ∧ j < c) ∧
    ∀ i j, i < r → j < c → Matrix.at (Matrix.mk3 r c v) i j = Res.ok v := by
  refine ⟨rfl, rfl, ⟨0, 0, hr, hc⟩, ?_⟩
  intro i j hi hj
  have h1 : ¬ i ≥ (Matrix.mk3 r c v).rows := fun h => absurd hi (Nat.not_lt.mpr h)
  have h2 : ¬ j ≥ (Matrix.mk3 r c v).columns := fun h => absurd hj (Nat.not_lt.mpr h)
  simp only [Matrix.at, Matrix.rangeCheck, if_neg h1, if_neg h2]
  rw [mk3_subscript]
  simp [hi, hj, Res.ofUB]

theorem fill_constructor_at_witness :
    (Matrix.mk3 2 3 (7 / 2)).rows = 2 ∧ (Matrix.mk3 2 3 (7 / 2)).columns = 3 ∧
    (∃ i j, i < 2 ∧ j < 3) ∧
    ∀ i j, i < 2 → j < 3 → Matrix.at (Matrix.mk3 2 3 (7 / 2)) i j = Res.ok (7 / 2) :=
  fill_constructor_at 2 3 (7 / 2) (by decide) (by decide)

/-- C13, refuted as stated: `Matrix(0, 3, 1)` and `Matrix(2, 0, 1)` are constructed (with
zero rows, respectively two empty rows) and `eye(0)` returns the `0 x 0` matrix; nothing is
thrown. -/
theorem fill_constructor_accepts_zero :
    Matrix.mk3 0 3 1 = Matrix.mk 0 3 [] ∧
    Matrix.mk3 2 0 1 = Matrix.mk 2 0 [[], []] ∧
    eye 0 = some (Matrix.mk 0 0 []) := by
  decide!

/-- C13, amended: the fill constructor `Matrix(rows, columns, fillValue)` never fails; for
all `rows` and `columns`, zero included, it returns a rectangular matrix of exactly that
shape whose stored elements are the positions `i < rows`, `j < columns`, each equal to
`fillValue` (so none at all when `rows == 0` or `columns == 0`); `eye(0)` returns the
`0 x 0` matrix. -/
theorem fill_constructor_total (row column : Nat) (value : ℚ) :
    (Matrix.mk3 row column value).WF ∧
    (Matrix.mk3 row column value).rows = row ∧
    (Matrix.mk3 row column value).columns = column ∧
    (∀ i j, (Matrix.mk3 row column value).subscript i j =
      if i < row ∧ j < column then some value else none) ∧
    (Matrix.mk3 0 column value).matrix = [] ∧
    eye 0 = some (Matrix.mk 0 0 []) :=
  ⟨mk3_WF _ _ _, rfl, rfl, mk3_subscript _ _ _, rfl, rfl⟩

theorem checkRows_cases (n : Nat) (t : List (List ℚ)) :
    (Matrix.checkRows n t = Res.ok () ∧ ∀ row ∈ t, row.length = n) ∨
    (Matrix.checkRows n t = Res.throw Exn.range_error ∧ ∃ row ∈ t, row.length ≠ n) := by
  induction t with
  | nil => exact Or.inl ⟨rfl, by simp⟩
  | cons row rest ih =>
    by_cases h : row.length ≠ n
    · exact Or.inr ⟨by simp [Matrix.checkRows, h], row, by simp, h⟩
    · have h' : row.length = n := not_not.mp h
      rcases ih with ⟨e, hall⟩ | ⟨e, r, hr, hne⟩
      · refine Or.inl ⟨by simp [Matrix.checkRows, h', e], ?_⟩
        intro r hr
        rcases List.mem_cons.mp hr with h1 | h1
        · rw [h1]; exact h'
        · exact hall r h1
      · exact Or.inr ⟨by simp [Matrix.checkRows, h', e], r, List.mem_cons_of_mem _ hr, hne⟩

theorem foldl_push_back {α : Type} (t acc : List α) :
    t.foldl (fun matrix row => matrix ++ [row]) acc = acc ++ t := by
  induction t generalizing acc with
  | nil => simp
  | cons x rest ih => simp [ih]

theorem ofInitList_cases (first : List ℚ) (rest : List (List ℚ)) :
    (Matrix.ofInitList (first :: rest) =
        Res.ok (Matrix.mk (rest.length + 1) first.length (first :: rest)) ∧
      ∀ row ∈ first :: rest, row.length = first.length) ∨
    (Matrix.ofInitList (first :: rest) = Res.throw Exn.range_error ∧
      ∃ row ∈ first :: rest, row.length ≠ first.length) := by
  rcases checkRows_cases first.length (first :: rest) with ⟨e, hall⟩ | ⟨e, hne⟩
  · refine Or.inl ⟨?_, hall⟩
    simp only [Matrix.ofInitList, Matrix.checkInitListSize, e, foldl_push_back]
    simp
  · refine Or.inr ⟨?_, hne⟩
    simp only [Matrix.ofInitList, Matrix.checkInitListSize, e]

/-- C14: for every non-empty table `first :: rest`, the literal constructor throws
`range_error` exactly when some row's length differs from the first row's length, and it
throws nothing else; it returns exactly when all rows have the first row's length, and then
the matrix has `rows` = number of rows, `columns` = length of the first row, and its
storage is the table itself, so element `(i, j)` is the `j`-th entry of the `i`-th row.
The rows `[1,2]` and `[3,4,5]` are rejected. -/
theorem ofInitList_spec (first : List ℚ) (rest : List (List ℚ)) :
    (Matrix.ofInitList (first :: rest) = Res.throw Exn.range_error ↔
      ∃ row ∈ first :: rest, row.length ≠ first.length) ∧
    ((∃ e, Matrix.ofInitList (first :: rest) = Res.throw e) ↔
      ∃ row ∈ first :: rest, row.length ≠ first.length) ∧
    (Matrix.ofInitList (first :: rest) =
        Res.ok (Matrix.mk (rest.length + 1) first.length (first :: rest)) ↔
      ∀ row ∈ first :: rest, row.length = first.length) ∧
    (∀ i j, (Matrix.mk (rest.length + 1) first.length (first :: rest)).subscript i j =
      ((first :: rest)[i]?).bind (fun row => row[j]?)) ∧
    Matrix.ofInitList [[1, 2], [3, 4, 5]] = Res.throw Exn.range_error := by
  refine ⟨?_, ?_, ?_, ?_, by decide!⟩
  · rcases ofInitList_cases first rest with ⟨e, hall⟩ | ⟨e, hne⟩
    · rw [e]
      refine ⟨fun h => by simp at h, ?_⟩
      rintro ⟨row, hr, hne⟩
      exact absurd (hall row hr) hne
    · exact ⟨fun _ => hne, fun _ => e⟩
  · rcases ofInitList_cases first rest with ⟨e, hall⟩ | ⟨e, hne⟩
    · rw [e]
      refine ⟨fun ⟨_, h⟩ => by simp at h, ?_⟩
      rintro ⟨row, hr, hne⟩
      exact absurd (hall row hr) hne
    · exact ⟨fun _ => hne, fun _ => ⟨_, e⟩⟩
  · rcases ofInitList_cases first rest with ⟨e, hall⟩ | ⟨e, row, hr, hne⟩
    · exact ⟨fun _ => hall, fun _ => e⟩
    · rw [e]
      refine ⟨fun h => by simp at h, ?_⟩
      intro hall
      exact absurd (hall row hr) hne
  · intro i j
    unfold Matrix.subscript
    cases (first :: rest)[i]? <;> rfl

theorem eye_correct (n : Nat) :
    ∃ E, eye n = some E ∧ E.WF ∧ E.rows = n ∧ E.columns = n ∧
      ∀ a b, a < n → b < n → E.subscript a b = some (if a = b then 1 else 0) := by
  have key := forUpTo_inv
    (fun i (m : Matrix) => m.WF ∧ m.rows = n ∧ m.columns = n ∧
      ∀ a b, a < n → b < n → m.subscript a b = some (if a = b ∧ a < i then 1 else 0))
    n (fun i eyeMatrix => eyeMatrix.subscriptSet i i 1) (Matrix.mk3 n n 0)
    ⟨mk3_WF _ _ _, rfl, rfl, fun a b ha hb => by
      rw [mk3_subscript]
      simp [ha, hb]⟩
    (by
      intro i m hi ⟨mWF, mr, mc, msub⟩
      obtain ⟨m', hm', mWF', mr', mc', msub'⟩ :=
        subscriptSet_spec m mWF i i 1 (by omega) (by omega)
      refine ⟨m', hm', mWF', by omega, by omega, ?_⟩
      intro a b ha hb
      rw [msub']
      by_cases hc : a = i ∧ b = i
      · obtain ⟨rfl, rfl⟩ := hc
        simp
      · rw [if_neg hc, msub a b ha hb]
        by_cases hab : a = b
        · subst hab
          have hai : a ≠ i := fun e => hc ⟨e, e⟩
          have h1 : (a < i + 1) = (a < i) := by
            apply propext
            omega
          simp [h1]
        · simp [hab])
  obtain ⟨E, hE, EWF, Er, Ec, Esub⟩ := key
  refine ⟨E, hE, EWF, Er, Ec, ?_⟩
  intro a b ha hb
  rw [Esub a b ha hb]
  by_cases hab : a = b
  · subst hab
    simp [ha]
  · simp [hab]

/-- C15: for every dimension `n` (in particular every `n >= 1`), `eye(n)` returns an
`n x n` rectangular matrix whose element `(i, j)` is `1` when `i == j` and `0` when
`i != j`, for all `0 <= i, j < n`; the `3 x 3` identity is an instance. -/
theorem eye_spec (n : Nat) :
    (∃ E, eye n = some E ∧ E.WF ∧ E.rows = n ∧ E.columns = n ∧
      ∀ i j, i < n → j < n → E.subscript i j = some (if i = j then 1 else 0)) ∧
    eye 3 = some (Matrix.mk 3 3 [[1, 0, 0], [0, 1, 0], [0, 0, 1]]) :=
  ⟨eye_correct n, by decide!⟩

/-! ## Reductions -/

theorem subscript_eq_entry (m : Matrix) (h : m.WF) (i j : Nat) (hi : i < m.rows)
    (hj : j < m.columns) : m.subscript i j = some (m.entry i j) := by
  obtain ⟨x, hx⟩ := subscript_isSome m h i j hi hj
  simp [Matrix.entry, hx]

theorem sum_loop (n : Nat) (f g : Nat → Option ℚ) (F G : Nat → ℚ)
    (hf : ∀ c, c < n → f c = some (F c)) (hg : ∀ c, c < n → g c = some (G c)) :
    forUpTo n (fun c product => do
      let a ← f c
      let b ← g c
      pure (product + a * b)) (0 : ℚ) = some (∑ c in Finset.range n, F c * G c) := by
  induction n with
  | zero => simp [forUpTo]
  | succ k ih =>
    have ih' := ih (fun c hc => hf c (Nat.lt_succ_of_lt hc))
      (fun c hc => hg c (Nat.lt_succ_of_lt hc))
    simp only [forUpTo, ih']
    simp [hf k (Nat.lt_succ_self k), hg k (Nat.lt_succ_self k), Finset.sum_range_succ]

/-- C16, refuted as stated: the fill constructor builds the `0 x 2` matrix `Matrix(0, 2, 0)`
and the `2 x 0` matrix `Matrix(2, 0, 0)`; on two `0 x 2` operands `dotProduct` takes the
row-vector branch (2 columns exceed 0 rows) and reads `l[0][0]` of a matrix without rows,
and on two `2 x 0` operands it takes the column-vector branch and reads `l[0][0]` of an
empty row: undefined behaviour in both. -/
theorem dotProduct_degenerate :
    Matrix.mk3 0 2 0 = Matrix.mk 0 2 [] ∧
    dotProduct (Matrix.mk 0 2 []) (Matrix.mk 0 2 []) = Res.ub ∧
    Matrix.mk3 2 0 0 = Matrix.mk 2 0 [[], []] ∧
    dotProduct (Matrix.mk 2 0 [[], []]) (Matrix.mk 2 0 [[], []]) = Res.ub := by
  decide!

/-- C16, amended: for matrices `l`, `r` that have at least one row and one column each
(and rectangular storage), `dotProduct(l, r)` follows the ordered rule.  If the column
counts are equal and exceed the row count of `l`, it returns the sum over columns `c` of `l[0][c] * r[0][c]`;
else if the row counts are equal and exceed the column count of `l`, it returns the sum
over rows `k` of `l[k][0] * r[k][0]`; otherwise, and in particular whenever `l` is square,
it throws `logic_error`.  In both returning branches every cell read is a stored cell. -/
theorem dotProduct_spec (l r : Matrix) (hl : l.WF) (hr : r.WF) (hlr : 0 < l.rows)
    (hlc : 0 < l.columns) (hrr : 0 < r.rows) (hrc : 0 < r.columns) :
    ((l.columns = r.columns ∧ l.columns > l.rows) →
      dotProduct l r = Res.ok (∑ c in Finset.range l.columns, l.entry 0 c * r.entry 0 c) ∧
      ∀ c, c < l.columns → (l.subscript 0 c).isSome ∧ (r.subscript 0 c).isSome) ∧
    (¬ (l.columns = r.columns ∧ l.columns > l.rows) →
      (l.rows = r.rows ∧ l.rows > l.columns) →
      dotProduct l r = Res.ok (∑ k in Finset.range l.rows, l.entry k 0 * r.entry k 0) ∧
      ∀ k, k < l.rows → (l.subscript k 0).isSome ∧ (r.subscript k 0).isSome) ∧
    (¬ (l.columns = r.columns ∧ l.columns > l.rows) →
      ¬ (l.rows = r.rows ∧ l.rows > l.columns) →
      dotProduct l r = Res.throw Exn.logic_error) ∧
    (l.rows = l.columns → dotProduct l r = Res.throw Exn.logic_error) := by
  refine ⟨?_, ?_, ?_, ?_⟩
  · intro h1
    have hL : ∀ c, c < l.columns → l.subscript 0 c = some (l.entry 0 c) :=
      fun c hc => subscript_eq_entry l hl 0 c hlr hc
    have hR : ∀ c, c < l.columns → r.subscript 0 c = some (r.entry 0 c) :=
      fun c hc => subscript_eq_entry r hr 0 c hrr (by omega)
    refine ⟨?_, fun c hc => by simp [hL c hc, hR c hc]⟩
    unfold dotProduct
    rw [if_pos h1, sum_loop l.columns _ _ _ _ hL hR]
    rfl
  · intro h1 h2
    have hL : ∀ k, k < l.rows → l.subscript k 0 = some (l.entry k 0) :=
      fun k hk => subscript_eq_entry l hl k 0 hk hlc
    have hR : ∀ k, k < l.rows → r.subscript k 0 = some (r.entry k 0) :=
      fun k hk => subscript_eq_entry r hr k 0 (by omega) hrc
    refine ⟨?_, fun k hk => by simp [hL k hk, hR k hk]⟩
    unfold dotProduct
    rw [if_neg h1, if_pos h2, sum_loop l.rows _ _ _ _ hL hR]
    rfl
  · intro h1 h2
    unfold dotProduct
    rw [if_neg h1, if_neg h2]
  · intro hsq
    have h1 : ¬ (l.columns = r.columns ∧ l.columns > l.rows) := by omega
    have h2 : ¬ (l.rows = r.rows ∧ l.rows > l.columns) := by omega
    unfold dotProduct
    rw [if_neg h1, if_neg h2]

theorem dotProduct_spec_witness :
    dotProduct (Matrix.mk 1 3 [[1, 2, 3]]) (Matrix.mk 1 3 [[4, 5, 6]]) =
        Res.ok (∑ c in Finset.range 3,
          (Matrix.mk 1 3 [[1, 2, 3]]).entry 0 c * (Matrix.mk 1 3 [[4, 5, 6]]).entry 0 c) ∧
      ∀ c, c < 3 → ((Matrix.mk 1 3 [[1, 2, 3]]).subscript 0 c).isSome ∧
        ((Matrix.mk 1 3 [[4, 5, 6]]).subscript 0 c).isSome :=
  (dotProduct_spec (Matrix.mk 1 3 [[1, 2, 3]]) (Matrix.mk 1 3 [[4, 5, 6]])
    (by decide) (by decide) (by decide) (by decide) (by decide) (by decide)).1
    ⟨rfl, by decide⟩

/-- C17: `elementMul` has no shape test and cannot throw.  On `first = [[1,2]]`,
`second = [[1]]` it reads `second[0][1]` outside the storage (undefined behaviour); on
`first = [[2]]`, `second = [[3,4],[5,6]]` it returns `6` although the shapes differ.  On
the equal shapes `[[1,2],[3,4]]`, `[[5,6],[7,8]]` it returns the sum of products `70`. -/
theorem elementMul_no_shape_check :
    elementMul (Matrix.mk 1 2 [[1, 2]]) (Matrix.mk 1 1 [[1]]) = none ∧
    elementMul (Matrix.mk 1 1 [[2]]) (Matrix.mk 2 2 [[3, 4], [5, 6]]) = some 6 ∧
    elementMul (Matrix.mk 2 2 [[1, 2], [3, 4]]) (Matrix.mk 2 2 [[5, 6], [7, 8]]) =
      some 70 := by
  decide!

/-- C19: on the `1 x 3` operands `A = [[1,2,3]]`, `B = [[4,5,6]]` neither `A + B` nor
`B + A` returns: the swapped loop bounds of the free `operator+` index outside the storage.
On the square operands `[[1,2],[3,4]]`, `[[5,6],[7,8]]` both sums are `[[6,8],[10,12]]`
and `operator==` of the two returns `true`. -/
theorem operatorAdd_comm_nonsquare :
    operatorAdd (Matrix.mk 1 3 [[1, 2, 3]]) (Matrix.mk 1 3 [[4, 5, 6]]) = Res.ub ∧
    operatorAdd (Matrix.mk 1 3 [[4, 5, 6]]) (Matrix.mk 1 3 [[1, 2, 3]]) = Res.ub ∧
    operatorAdd (Matrix.mk 2 2 [[1, 2], [3, 4]]) (Matrix.mk 2 2 [[5, 6], [7, 8]]) =
      Res.ok (Matrix.mk 2 2 [[6, 8], [10, 12]]) ∧
    operatorAdd (Matrix.mk 2 2 [[5, 6], [7, 8]]) (Matrix.mk 2 2 [[1, 2], [3, 4]]) =
      Res.ok (Matrix.mk 2 2 [[6, 8], [10, 12]]) ∧
    operatorEq (Matrix.mk 2 2 [[6, 8], [10, 12]]) (Matrix.mk 2 2 [[6, 8], [10, 12]]) =
      some true := by
  decide!

/-! ## The representation invariant is preserved -/

theorem forUpTo_preserves {σ : Type} (P : σ → Prop) (n : Nat) (body : Nat → σ → Option σ)
    (s : σ) (h0 : P s) (hstep : ∀ i t t', P t → body i t = some t' → P t') :
    ∀ t, forUpTo n body s = some t → P t := by
  induction n with
  | zero =>
    intro t ht
    simp only [forUpTo, Option.some.injEq] at ht
    rw [← ht]
    exact h0
  | succ k ih =>
    intro t ht
    simp only [forUpTo] at ht
    obtain ⟨u, hu, hb⟩ := Option.bind_eq_some.mp ht
    exact hstep k u t (ih u hu) hb

theorem subscriptSet_preserves (m m' : Matrix) (i j : Nat) (v : ℚ) (h : m.WF)
    (hset : m.subscriptSet i j v = some m') :
    m'.WF ∧ m'.rows = m.rows ∧ m'.columns = m.columns := by
  obtain ⟨hlen, hrow⟩ := h
  unfold Matrix.subscriptSet at hset
  cases hrw : m.matrix[i]? with
  | none => simp [hrw] at hset
  | some r =>
    simp only [hrw] at hset
    split at hset
    · simp only [Option.some.injEq] at hset
      rw [← hset]
      refine ⟨⟨by simpa using hlen, ?_⟩, rfl, rfl⟩
      intro r' hr'
      rcases List.mem_or_eq_of_mem_set hr' with h1 | h1
      · exact hrow r' h1
      · rw [h1, List.length_set]
        exact hrow r (List.getElem?_mem hrw)
    · simp at hset

/-- Two nested counting loops whose body ends in one unchecked write keep the invariant
and the shape, whatever their bounds and whatever is read before the write. -/
theorem nested_writes_preserve (R C n : Nat) (bound : Nat → Matrix → Nat)
    (body : Nat → Nat → Matrix → Option Matrix)
    (hbody : ∀ i j m m', body i j m = some m' → ∃ a b v, m.subscriptSet a b v = some m')
    (s t : Matrix) (hs : s.WF ∧ s.rows = R ∧ s.columns = C)
    (ht : forUpTo n (fun i m => forUpTo (bound i m) (fun j m => body i j m) m) s = some t) :
    t.WF ∧ t.rows = R ∧ t.columns = C := by
  refine forUpTo_preserves (fun m => m.WF ∧ m.rows = R ∧ m.columns = C) n _ s hs ?_ t ht
  intro i u u' hu hloop
  refine forUpTo_preserves (fun m => m.WF ∧ m.rows = R ∧ m.columns = C) _ _ u hu ?_ u' hloop
  intro j w w' hw hb
  obtain ⟨a, b, v, hx⟩ := hbody i j w w' hb
  obtain ⟨h1, h2, h3⟩ := subscriptSet_preserves w w' _ _ _ hw.1 hx
  exact ⟨h1, by omega, by omega⟩

theorem copy_row (r : Matrix) (h : r.WF) (row : Nat) (hrow : row < r.rows) :
    ∃ x, r.matrix[row]? = some x ∧
      forUpTo r.columns (fun column matrixRow => do
        let v ← r.subscript row column
        pure (matrixRow ++ [v])) [] = some x := by
  obtain ⟨hlen, hrows⟩ := h
  have hi : row < r.matrix.length := by omega
  have hx : r.matrix[row]? = some (r.matrix[row]) := List.getElem?_eq_getElem hi
  have hxl : (r.matrix[row]).length = r.columns := hrows _ (List.getElem_mem _)
  refine ⟨r.matrix[row], hx, ?_⟩
  obtain ⟨t, ht, hinv⟩ := forUpTo_inv
    (fun j (matrixRow : List ℚ) => matrixRow = (r.matrix[row]).take j) r.columns
    (fun column matrixRow => do
      let v ← r.subscript row column
      pure (matrixRow ++ [v])) [] (by simp)
    (by
      intro j u hj hu
      have hj' : j < (r.matrix[row]).length := by omega
      refine ⟨u ++ [(r.matrix[row])[j]], ?_, ?_⟩
      · simp [Matrix.subscript, hx, List.getElem?_eq_getElem hj']
      · show u ++ [(r.matrix[row])[j]] = (r.matrix[row]).take (j + 1)
        rw [hu, List.take_succ, List.getElem?_eq_getElem hj']
        rfl)
  have e : (r.matrix[row]).take r.columns = r.matrix[row] := by
    rw [← hxl, List.take_length]
  rw [ht, hinv, e]

theorem copy_correct (r : Matrix) (h : r.WF) : Matrix.copy r = some r := by
  obtain ⟨t, ht, hinv⟩ := forUpTo_inv
    (fun i (matrix : List (List ℚ)) => matrix = r.matrix.take i) r.rows
    (fun row matrix => do
      let matrixRow ← forUpTo r.columns (fun column matrixRow => do
        let x ← r.subscript row column
        pure (matrixRow ++ [x])) []
      pure (matrix ++ [matrixRow])) [] (by simp)
    (by
      intro i u hi hu
      obtain ⟨x, hx, hloop⟩ := copy_row r h i hi
      refine ⟨u ++ [x], ?_, ?_⟩
      · show (do
          let matrixRow ← forUpTo r.columns (fun column matrixRow => do
            let x ← r.subscript i column
            pure (matrixRow ++ [x])) []
          pure (u ++ [matrixRow])) = some (u ++ [x])
        rw [hloop]
        rfl
      · show u ++ [x] = r.matrix.take (i + 1)
        rw [hu, List.take_succ, hx]
        rfl)
  have e : r.matrix.take r.rows = r.matrix := by
    rw [← h.1, List.take_length]
  unfold Matrix.copy
  rw [ht, hinv, e]
  rfl

theorem scalarAssign_preserves (op : ℚ → ℚ → ℚ) (A M : Matrix) (s : ℚ) (hA : A.WF)
    (h : Matrix.scalarAssign op A s = some M) :
    M.WF ∧ M.rows = A.rows ∧ M.columns = A.columns :=
  nested_writes_preserve A.rows A.columns A.columns (fun _ m => m.rows)
    (fun i j m => do
      let x ← m.subscript i j
      m.subscriptSet i j (op x s))
    (fun i j m m' hb => by
      obtain ⟨x, _, hx⟩ := Option.bind_eq_some.mp hb
      exact ⟨_, _, _, hx⟩)
    A M ⟨hA, rfl, rfl⟩ h

theorem matrixAssign_preserves (op : ℚ → ℚ → ℚ) (A B M : Matrix) (hA : A.WF)
    (h : Matrix.matrixAssign op A B = Mut.done M) :
    M.WF ∧ M.rows = A.rows ∧ M.columns = A.columns := by
  unfold Matrix.matrixAssign at h
  split at h
  · simp at h
  · cases hloop : forUpTo A.columns (fun i self =>
        forUpTo self.rows (fun j self => do
          let x ← self.subscript i j
          let y ← B.subscript i j
          self.subscriptSet i j (op x y)) self) A with
    | none => rw [hloop] at h; simp [Mut.ofUB] at h
    | some t =>
      rw [hloop] at h; simp only [Mut.ofUB, Mut.done.injEq] at h
      rw [← h]
      exact nested_writes_preserve A.rows A.columns A.columns (fun _ m => m.rows)
        (fun i j m => do
          let x ← m.subscript i j
          let y ← B.subscript i j
          m.subscriptSet i j (op x y))
        (fun i j m m' hb => by
          obtain ⟨x, _, hx⟩ := Option.bind_eq_some.mp hb
          obtain ⟨y, _, hy⟩ := Option.bind_eq_some.mp hx
          exact ⟨_, _, _, hy⟩)
        A t ⟨hA, rfl, rfl⟩ hloop

theorem operatorAdd_preserves (A B M : Matrix) (h : operatorAdd A B = Res.ok M) :
    M.WF ∧ M.rows = A.rows ∧ M.columns = A.columns := by
  unfold operatorAdd at h
  split at h
  · simp at h
  · cases hloop : forUpTo A.columns (fun i out =>
        forUpTo A.rows (fun j out => do
          let x ← A.subscript i j
          let y ← B.subscript i j
          out.subscriptSet i j (x + y)) out) (Matrix.mk3 A.rows A.columns 0) with
    | none => rw [hloop] at h; simp [Res.ofUB] at h
    | some t =>
      rw [hloop] at h; simp only [Res.ofUB, Res.ok.injEq] at h
      rw [← h]
      exact nested_writes_preserve A.rows A.columns A.columns (fun _ _ => A.rows)
        (fun i j m => do
          let x ← A.subscript i j
          let y ← B.subscript i j
          m.subscriptSet i j (x + y))
        (fun i j m m' hb => by
          obtain ⟨x, _, hx⟩ := Option.bind_eq_some.mp hb
          obtain ⟨y, _, hy⟩ := Option.bind_eq_some.mp hx
          exact ⟨_, _, _, hy⟩)
        (Matrix.mk3 A.rows A.columns 0) t ⟨mk3_WF _ _ _, rfl, rfl⟩ hloop

theorem productLoops_preserves (l r s t : Matrix) (hs : s.WF)
    (h : productLoops l r s = some t) :
    t.WF ∧ t.rows = s.rows ∧ t.columns = s.columns :=
  nested_writes_preserve s.rows s.columns l.rows (fun _ _ => r.columns)
    (fun row rColumn m => do
      let num ← accumulate l r row rColumn
      m.subscriptSet row rColumn (num : ℚ))
    (fun i j m m' hb => by
      obtain ⟨x, _, hx⟩ := Option.bind_eq_some.mp hb
      exact ⟨_, _, _, hx⟩)
    s t ⟨hs, rfl, rfl⟩ h

theorem operatorMul_eq (l r : Matrix) :
    operatorMul l r =
      if l.columns ≠ r.rows then Res.throw Exn.range_error
      else Res.ofUB (productLoops l r (Matrix.mk3 l.rows r.columns 0)) := rfl

theorem operatorMulAssign_eq (A B : Matrix) (hA : A.WF) :
    A.operatorMulAssign B =
      if A.columns ≠ B.rows then Mut.threw Exn.range_error A
      else Mut.ofUB (productLoops A B
        (if A.columns ≠ B.columns then Matrix.mk3 A.rows B.columns 0 else A)) := by
  unfold Matrix.operatorMulAssign
  rw [copy_correct A hA]
  by_cases h : A.columns ≠ B.rows
  · rw [if_pos h, if_pos h]
  · rw [if_neg h, if_neg h]
    by_cases hc : A.columns ≠ B.columns
    · have h1 : A.rows ≠ A.rows ∨ A.columns ≠ B.columns := Or.inr hc
      simp only [if_pos h1, if_pos hc]
      rfl
    · have h1 : ¬ (A.rows ≠ A.rows ∨ A.columns ≠ B.columns) := fun c =>
        c.elim (fun c1 => c1 rfl) hc
      simp only [if_neg h1, if_neg hc]
      rfl

theorem operatorMul_preserves (A B M : Matrix) (h : operatorMul A B = Res.ok M) :
    M.WF ∧ M.rows = A.rows ∧ M.columns = B.columns := by
  rw [operatorMul_eq] at h
  split at h
  · simp at h
  · cases hloop : productLoops A B (Matrix.mk3 A.rows B.columns 0) with
    | none => rw [hloop] at h; simp [Res.ofUB] at h
    | some t =>
      rw [hloop] at h; simp only [Res.ofUB, Res.ok.injEq] at h
      rw [← h]
      exact productLoops_preserves A B _ t (mk3_WF _ _ _) hloop

theorem operatorMulAssign_preserves (A B M : Matrix) (hA : A.WF)
    (h : A.operatorMulAssign B = Mut.done M) :
    M.WF ∧ M.rows = A.rows ∧ M.columns = B.columns := by
  rw [operatorMulAssign_eq A B hA] at h
  split at h
  · simp at h
  · by_cases hc : A.columns ≠ B.columns
    · rw [if_pos hc] at h
      cases hloop : productLoops A B (Matrix.mk3 A.rows B.columns 0) with
      | none => rw [hloop] at h; simp [Mut.ofUB] at h
      | some t =>
        rw [hloop] at h; simp only [Mut.ofUB, Mut.done.injEq] at h
        rw [← h]
        exact productLoops_preserves A B _ t (mk3_WF _ _ _) hloop
    · rw [if_neg hc] at h
      cases hloop : productLoops A B A with
      | none => rw [hloop] at h; simp [Mut.ofUB] at h
      | some t =>
        rw [hloop] at h; simp only [Mut.ofUB, Mut.done.injEq] at h
        rw [← h]
        obtain ⟨h1, h2, h3⟩ := productLoops_preserves A B A t hA hloop
        exact ⟨h1, h2, by rw [h3]; exact not_not.mp hc⟩

theorem scalarOp_preserves (op : ℚ → ℚ → ℚ) (A M : Matrix) (s : ℚ) (hA : A.WF)
    (h : scalarOp op A s = some M) :
    M.WF ∧ M.rows = A.rows ∧ M.columns = A.columns := by
  unfold scalarOp at h
  rw [copy_correct A hA] at h
  exact nested_writes_preserve A.rows A.columns A.rows (fun _ m => m.columns)
    (fun i j m => do
      let x ← m.subscript i j
      m.subscriptSet i j (op x s))
    (fun i j m m' hb => by
      obtain ⟨x, _, hx⟩ := Option.bind_eq_some.mp hb
      exact ⟨_, _, _, hx⟩)
    A M ⟨hA, rfl, rfl⟩ h

theorem ofInitList_WF (t : List (List ℚ)) (M : Matrix) (h : Matrix.ofInitList t = Res.ok M) :
    M.WF ∧ M.rows = t.length := by
  cases t with
  | nil => simp [Matrix.ofInitList, Matrix.checkInitListSize] at h
  | cons first rest =>
    rcases ofInitList_cases first rest with ⟨e, hall⟩ | ⟨e, _⟩
    · rw [e] at h
      simp only [Res.ok.injEq] at h
      rw [← h]
      exact ⟨⟨rfl, hall⟩, rfl⟩
    · rw [e] at h
      simp at h

/-- C18: rectangular-storage invariant.  A matrix returned by the fill constructor, by the
literal constructor or by the copy constructor stores exactly `rows` rows of exactly
`columns` elements.  For a receiver or operand `A` with that property, whatever `assign`,
the compound scalar operators (`scalarAssign` with any `op`), the compound `+=` / `-=`
(`matrixAssign` with any `op`), the compound matrix `*=`, the free `+`, the free `*`, the
free scalar operators (`scalarOp` with any `op`), `transpose` and `eye` return on success
has the property again.  `assign`, the compound scalar operators and `+=` / `-=` keep
`(rows, columns)`; the compound `*=` leaves the receiver with the shape
`(A.rows, B.columns)` and storage of that shape. -/
theorem rectangular_invariant (A B : Matrix) (hA : A.WF) :
    (∀ r c v, (Matrix.mk3 r c v).WF ∧ (Matrix.mk3 r c v).rows = r ∧
      (Matrix.mk3 r c v).columns = c) ∧
    (∀ t M, Matrix.ofInitList t = Res.ok M → M.WF ∧ M.rows = t.length) ∧
    (Matrix.copy A = some A) ∧
    (∀ i j v M, A.assign i j v = Mut.done M →
      M.WF ∧ M.rows = A.rows ∧ M.columns = A.columns) ∧
    (∀ op s M, Matrix.scalarAssign op A s = some M →
      M.WF ∧ M.rows = A.rows ∧ M.columns = A.columns) ∧
    (∀ op M, Matrix.matrixAssign op A B = Mut.done M →
      M.WF ∧ M.rows = A.rows ∧ M.columns = A.columns) ∧
    (∀ M, A.operatorMulAssign B = Mut.done M →
      M.WF ∧ M.rows = A.rows ∧ M.columns = B.columns) ∧
    (∀ M, operatorAdd A B = Res.ok M → M.WF ∧ M.rows = A.rows ∧ M.columns = A.columns) ∧
    (∀ M, operatorMul A B = Res.ok M → M.WF ∧ M.rows = A.rows ∧ M.columns = B.columns) ∧
    (∀ op s M, scalarOp op A s = some M →
      M.WF ∧ M.rows = A.rows ∧ M.columns = A.columns) ∧
    (∀ M, transpose A = some M → M.WF ∧ M.rows = A.columns ∧ M.columns = A.rows) ∧
    (∀ n M, eye n = some M → M.WF ∧ M.rows = n ∧ M.columns = n) := by
  refine ⟨fun r c v => ⟨mk3_WF r c v, rfl, rfl⟩, ofInitList_WF, copy_correct A hA, ?_,
    fun op s M h => scalarAssign_preserves op A M s hA h,
    fun op M h => matrixAssign_preserves op A B M hA h,
    fun M h => operatorMulAssign_preserves A B M hA h,
    fun M h => operatorAdd_preserves A B M h,
    fun M h => operatorMul_preserves A B M h,
    fun op s M h => scalarOp_preserves op A M s hA h, ?_, ?_⟩
  · intro i j v M h
    unfold Matrix.assign at h
    cases hc : A.rangeCheck i j with
    | ok u =>
      rw [hc] at h
      cases hs : A.subscriptSet i j v with
      | none => rw [hs] at h; simp [Mut.ofUB] at h
      | some m =>
        rw [hs] at h
        simp only [Mut.ofUB, Mut.done.injEq] at h
        rw [← h]
        exact subscriptSet_preserves A m i j v hA hs
    | throw e => rw [hc] at h; simp at h
    | ub => rw [hc] at h; simp at h
  · intro M h
    obtain ⟨R, hR, RWF, Rr, Rc, _⟩ := transpose_correct A hA
    rw [hR] at h
    simp only [Option.some.injEq] at h
    rw [← h]
    exact ⟨RWF, Rr, Rc⟩
  · intro n M h
    obtain ⟨E, hE, EWF, Er, Ec, _⟩ := eye_correct n
    rw [hE] at h
    simp only [Option.some.injEq] at h
    rw [← h]
    exact ⟨EWF, Er, Ec⟩

theorem rectangular_invariant_witness :
    (Matrix.mk 1 2 [[1, 2]]).WF ∧
    ((Matrix.mk 1 2 [[1, 2]]).operatorMulAssign (Matrix.mk 2 3 [[1, 0, 1], [0, 1, 1]]) =
      Mut.done (Matrix.mk 1 3 [[1, 2, 3]])) ∧
    ((Matrix.mk 1 3 [[1, 2, 3]]).WF ∧ (Matrix.mk 1 3 [[1, 2, 3]]).rows = 1 ∧
      (Matrix.mk 1 3 [[1, 2, 3]]).columns = 3) :=
  ⟨by decide, by decide!,
    (rectangular_invariant (Matrix.mk 1 2 [[1, 2]]) (Matrix.mk 2 3 [[1, 0, 1], [0, 1, 1]])
      (by decide)).2.2.2.2.2.2.1 (Matrix.mk 1 3 [[1, 2, 3]]) (by decide!)⟩

/-! ## The matrix products -/

theorem forUpTo_none {σ : Type} (n : Nat) (body : Nat → σ → Option σ) (s : σ) (i : Nat)
    (hi : i < n) (hfail : ∀ t, body i t = none) : forUpTo n body s = none := by
  induction n with
  | zero => exact absurd hi (Nat.not_lt_zero i)
  | succ k ih =>
    simp only [forUpTo]
    by_cases e : i = k
    · subst e
      cases forUpTo i body s with
      | none => rfl
      | some t => exact hfail t
    · rw [ih (by omega)]
      rfl

theorem forUpTo_congr {σ : Type} (n : Nat) (body body' : Nat → σ → Option σ) (s : σ)
    (h : ∀ i t, i < n → body i t = body' i t) : forUpTo n body s = forUpTo n body' s := by
  induction n with
  | zero => rfl
  | succ k ih =>
    simp only [forUpTo]
    rw [ih (fun i t hi => h i t (Nat.lt_succ_of_lt hi))]
    cases forUpTo k body' s with
    | none => rfl
    | some t => exact h k t (Nat.lt_succ_self k)

theorem productLoops_fail (l r init : Matrix) (i j : Nat) (hi : i < l.rows)
    (hj : j < r.columns) (hacc : accumulate l r i j = none) :
    productLoops l r init = none := by
  unfold productLoops
  apply forUpTo_none l.rows _ init i hi
  intro t
  apply forUpTo_none r.columns _ t j hj
  intro u
  rw [hacc]
  rfl

theorem productLoops_ok (l r init : Matrix) (hinit : init.WF) (hr : init.rows = l.rows)
    (hc : init.columns = r.columns)
    (hacc : ∀ i j, i < l.rows → j < r.columns → accumulate l r i j ≠ none) :
    ∃ R, productLoops l r init = some R ∧ R.WF ∧ R.rows = l.rows ∧ R.columns = r.columns ∧
      ∀ i j, i < l.rows → j < r.columns →
        R.subscript i j = some (((accumulate l r i j).getD 0 : Int) : ℚ) := by
  have key := forUpTo_inv
    (fun i (m : Matrix) => m.WF ∧ m.rows = l.rows ∧ m.columns = r.columns ∧
      ∀ a b, a < i → b < r.columns →
        m.subscript a b = some (((accumulate l r a b).getD 0 : Int) : ℚ))
    l.rows
    (fun row result =>
      forUpTo r.columns (fun rColumn result => do
        let num ← accumulate l r row rColumn
        result.subscriptSet row rColumn (num : ℚ)) result)
    init
    ⟨hinit, hr, hc, fun a b ha _ => absurd ha (Nat.not_lt_zero a)⟩
    (by
      intro i t hi ⟨tWF, tr, tc, tsub⟩
      have inner := forUpTo_inv
        (fun j (m : Matrix) => m.WF ∧ m.rows = l.rows ∧ m.columns = r.columns ∧
          ∀ a b, b < r.columns → (a < i ∨ (a = i ∧ b < j)) →
            m.subscript a b = some (((accumulate l r a b).getD 0 : Int) : ℚ))
        r.columns
        (fun rColumn result => do
          let num ← accumulate l r i rColumn
          result.subscriptSet i rColumn (num : ℚ))
        t
        ⟨tWF, tr, tc, fun a b hb hab => by
          rcases hab with ha | ⟨_, hb0⟩
          · exact tsub a b ha hb
          · exact absurd hb0 (Nat.not_lt_zero b)⟩
        (by
          intro j u hj ⟨uWF, ur, uc, usub⟩
          obtain ⟨n, hn⟩ := Option.ne_none_iff_exists'.mp (hacc i j hi hj)
          obtain ⟨u', hu', uWF', ur', uc', usub'⟩ :=
            subscriptSet_spec u uWF i j (n : ℚ) (by omega) (by omega)
          refine ⟨u', by simp only [hn]; exact hu', uWF', by omega, by omega, ?_⟩
          intro a b hb hab
          rw [usub']
          by_cases hcase : a = i ∧ b = j
          · obtain ⟨rfl, rfl⟩ := hcase
            simp [hn]
          · rw [if_neg hcase]
            apply usub a b hb
            rcases hab with ha | ⟨ha, hbj⟩
            · exact Or.inl ha
            · refine Or.inr ⟨ha, ?_⟩
              have : b ≠ j := fun e => hcase ⟨ha, e⟩
              omega)
      obtain ⟨u, hu, uWF, ur, uc, usub⟩ := inner
      refine ⟨u, hu, uWF, ur, uc, ?_⟩
      intro a b ha hb
      apply usub a b hb
      by_cases hai : a = i
      · exact Or.inr ⟨hai, hb⟩
      · exact Or.inl (by omega))
  obtain ⟨R, hR, RWF, Rr, Rc, Rsub⟩ := key
  exact ⟨R, hR, RWF, Rr, Rc, fun i j hi hj => Rsub i j hi hj⟩

theorem productLoops_init_irrelevant (l r s1 s2 : Matrix) (h1 : s1.WF) (h2 : s2.WF)
    (hr1 : s1.rows = l.rows) (hc1 : s1.columns = r.columns) (hr2 : s2.rows = l.rows)
    (hc2 : s2.columns = r.columns) : productLoops l r s1 = productLoops l r s2 := by
  by_cases hacc : ∀ i j, i < l.rows → j < r.columns → accumulate l r i j ≠ none
  · obtain ⟨R1, e1, W1, r1, c1, sub1⟩ := productLoops_ok l r s1 h1 hr1 hc1 hacc
    obtain ⟨R2, e2, W2, r2, c2, sub2⟩ := productLoops_ok l r s2 h2 hr2 hc2 hacc
    rw [e1, e2]
    congr 1
    apply matrix_ext R1 R2 W1 W2 (by omega) (by omega)
    intro i j hi hj
    rw [sub1 i j (by omega) (by omega), sub2 i j (by omega) (by omega)]
  · have : ∃ i j, i < l.rows ∧ j < r.columns ∧ accumulate l r i j = none := by
      by_contra hne
      apply hacc
      intro i j hi hj e
      exact hne ⟨i, j, hi, hj, e⟩
    obtain ⟨i, j, hi, hj, e⟩ := this
    rw [productLoops_fail l r s1 i j hi hj e, productLoops_fail l r s2 i j hi hj e]

theorem operatorMulAssign_correct (A B : Matrix) (hA : A.WF) :
    A.operatorMulAssign B = Mut.ofRes A (operatorMul A B) := by
  rw [operatorMulAssign_eq A B hA, operatorMul_eq]
  by_cases h : A.columns ≠ B.rows
  · rw [if_pos h, if_pos h]
    rfl
  · rw [if_neg h, if_neg h]
    have e : productLoops A B (if A.columns ≠ B.columns then Matrix.mk3 A.rows B.columns 0
        else A) = productLoops A B (Matrix.mk3 A.rows B.columns 0) := by
      by_cases hc : A.columns ≠ B.columns
      · rw [if_pos hc]
      · rw [if_neg hc]
        exact productLoops_init_irrelevant A B A (Matrix.mk3 A.rows B.columns 0) hA
          (mk3_WF _ _ _) rfl (not_not.mp hc) rfl rfl
    rw [e]
    cases productLoops A B (Matrix.mk3 A.rows B.columns 0) <;> rfl

theorem operatorMul_returns (A B : Matrix) (h : A.columns = B.rows)
    (hacc : ∀ i j, i < A.rows → j < B.columns → accumulate A B i j ≠ none) :
    ∃ P, operatorMul A B = Res.ok P ∧ P.WF ∧ P.rows = A.rows ∧ P.columns = B.columns ∧
      ∀ i j, i < A.rows → j < B.columns →
        P.subscript i j = some (((accumulate A B i j).getD 0 : Int) : ℚ) := by
  obtain ⟨R, e, W, hr, hc, hsub⟩ :=
    productLoops_ok A B (Matrix.mk3 A.rows B.columns 0) (mk3_WF _ _ _) rfl rfl hacc
  refine ⟨R, ?_, W, hr, hc, hsub⟩
  rw [operatorMul_eq, if_neg (fun c => c h), e]
  rfl

/-- C11: for a receiver `A` (satisfying the representation invariant) and an argument `B`
that is a value distinct from `A`, the outcome of `A *= B` is the outcome of the
assignment `A = A * B` with the free product.  If `A.columns != B.rows` it throws
`range_error` and the receiver is `A`, unchanged.  If the free product returns `M`, then
`A *= B` leaves the receiver equal to `M`, which is rectangular of shape
`(A.rows, B.columns)`.  With `A.columns == B.rows` both return whenever every `int`
accumulation `accumulate A B i j` is defined. -/
theorem operatorMulAssign_refines (A B : Matrix) (hA : A.WF) :
    A.operatorMulAssign B = Mut.ofRes A (operatorMul A B) ∧
    (A.columns ≠ B.rows → A.operatorMulAssign B = Mut.threw Exn.range_error A) ∧
    (∀ M, operatorMul A B = Res.ok M →
      A.operatorMulAssign B = Mut.done M ∧ M.WF ∧ M.rows = A.rows ∧
        M.columns = B.columns) ∧
    (A.columns = B.rows →
      (∀ i j, i < A.rows → j < B.columns → accumulate A B i j ≠ none) →
      ∃ M, operatorMul A B = Res.ok M ∧ A.operatorMulAssign B = Mut.done M) := by
  have e := operatorMulAssign_correct A B hA
  refine ⟨e, ?_, ?_, ?_⟩
  · intro h
    rw [e, operatorMul_eq, if_pos h]
    rfl
  · intro M hM
    refine ⟨by rw [e, hM]; rfl, operatorMul_preserves A B M hM⟩
  · intro h hacc
    obtain ⟨P, hP, _⟩ := operatorMul_returns A B h hacc
    exact ⟨P, hP, by rw [e, hP]; rfl⟩

theorem operatorMulAssign_refines_witness :
    (Matrix.mk 1 2 [[1, 2]]).WF ∧
    operatorMul (Matrix.mk 1 2 [[1, 2]]) (Matrix.mk 2 3 [[1, 0, 1], [0, 1, 1]]) =
      Res.ok (Matrix.mk 1 3 [[1, 2, 3]]) ∧
    ((Matrix.mk 1 2 [[1, 2]]).operatorMulAssign (Matrix.mk 2 3 [[1, 0, 1], [0, 1, 1]]) =
        Mut.done (Matrix.mk 1 3 [[1, 2, 3]]) ∧
      (Matrix.mk 1 3 [[1, 2, 3]]).WF ∧
      (Matrix.mk 1 3 [[1, 2, 3]]).rows = (Matrix.mk 1 2 [[1, 2]]).rows ∧
      (Matrix.mk 1 3 [[1, 2, 3]]).columns =
        (Matrix.mk 2 3 [[1, 0, 1], [0, 1, 1]]).columns) :=
  ⟨by decide, by decide!,
    (operatorMulAssign_refines (Matrix.mk 1 2 [[1, 2]])
      (Matrix.mk 2 3 [[1, 0, 1], [0, 1, 1]]) (by decide)).2.2.1
      (Matrix.mk 1 3 [[1, 2, 3]]) (by decide!)⟩

theorem accumulate_transpose (A B At Bt : Matrix) (hA : A.WF) (hB : B.WF)
    (h : A.columns = B.rows) (hAt : transpose A = some At) (hBt : transpose B = some Bt)
    (i j : Nat) (hi : i < A.rows) (hj : j < B.columns) :
    accumulate Bt At j i = accumulate A B i j := by
  obtain ⟨R, hR, _, Rr, _, Rsub⟩ := transpose_correct A hA
  obtain ⟨S, hS, _, _, _, Ssub⟩ := transpose_correct B hB
  rw [hAt] at hR
  rw [hBt] at hS
  simp only [Option.some.injEq] at hR hS
  subst hR hS
  unfold accumulate
  have hrows : At.rows = B.rows := by omega
  rw [hrows]
  apply forUpTo_congr
  intro k num hk
  obtain ⟨x, hx⟩ := subscript_isSome A hA i k hi (by omega)
  obtain ⟨y, hy⟩ := subscript_isSome B hB k j hk hj
  simp only [Ssub k j hk hj, Rsub i k hi (by omega), hx, hy]
  show toInt ((num : ℚ) + y * x) = toInt ((num : ℚ) + x * y)
  rw [mul_comm]

theorem transpose_product_correct (A B : Matrix) (hA : A.WF) (hB : B.WF)
    (h : A.columns = B.rows) :
    ∃ At Bt, transpose A = some At ∧ transpose B = some Bt ∧ Bt.columns = At.rows ∧
      (∀ i j, i < A.rows → j < B.columns → accumulate Bt At j i = accumulate A B i j) ∧
      ((operatorMul A B = Res.ub ∧ operatorMul Bt At = Res.ub) ∨
        (∃ P Pt Q, operatorMul A B = Res.ok P ∧ transpose P = some Pt ∧
          operatorMul Bt At = Res.ok Q ∧ Pt = Q ∧ operatorEq Pt Q = some true ∧
          Pt.rows = B.columns ∧ Pt.columns = A.rows)) ∧
      ((∀ i j, i < A.rows → j < B.columns → accumulate A B i j ≠ none) →
        ∃ P, operatorMul A B = Res.ok P) := by
  obtain ⟨At, hAt, AtWF, Atr, Atc, _⟩ := transpose_correct A hA
  obtain ⟨Bt, hBt, BtWF, Btr, Btc, _⟩ := transpose_correct B hB
  have hinner : Bt.columns = At.rows := by omega
  have hacc_eq : ∀ i j, i < A.rows → j < B.columns →
      accumulate Bt At j i = accumulate A B i j :=
    fun i j hi hj => accumulate_transpose A B At Bt hA hB h hAt hBt i j hi hj
  refine ⟨At, Bt, hAt, hBt, hinner, hacc_eq, ?_,
    fun hacc => let ⟨P, hP, _⟩ := operatorMul_returns A B h hacc; ⟨P, hP⟩⟩
  by_cases hacc : ∀ i j, i < A.rows → j < B.columns → accumulate A B i j ≠ none
  · right
    obtain ⟨P, hP, PWF, Pr, Pc, Psub⟩ := operatorMul_returns A B h hacc
    have hacc' : ∀ j i, j < Bt.rows → i < At.columns → accumulate Bt At j i ≠ none := by
      intro j i hj hi
      rw [hacc_eq i j (by omega) (by omega)]
      exact hacc i j (by omega) (by omega)
    obtain ⟨Q, hQ, QWF, Qr, Qc, Qsub⟩ := operatorMul_returns Bt At hinner hacc'
    obtain ⟨Pt, hPt, PtWF, Ptr, Ptc, Ptsub⟩ := transpose_correct P PWF
    have hEq : Pt = Q := by
      apply matrix_ext Pt Q PtWF QWF (by omega) (by omega)
      intro j i hj hi
      rw [Ptsub i j (by omega) (by omega), Psub i j (by omega) (by omega),
        Qsub j i (by omega) (by omega), hacc_eq i j (by omega) (by omega)]
    refine ⟨P, Pt, Q, hP, hPt, hQ, hEq, ?_, by omega, by omega⟩
    obtain ⟨b, hb, _, hiff⟩ := operatorEq_correct Pt Q PtWF QWF
    have : b = true := by
      apply hiff.mpr
      rw [hEq]
      exact ⟨rfl, rfl, fun _ _ _ _ => rfl⟩
    rw [hb, this]
  · left
    have : ∃ i j, i < A.rows ∧ j < B.columns ∧ accumulate A B i j = none := by
      by_contra hne
      apply hacc
      intro i j hi hj e
      exact hne ⟨i, j, hi, hj, e⟩
    obtain ⟨i, j, hi, hj, e⟩ := this
    constructor
    · rw [operatorMul_eq, if_neg (fun c => c h),
        productLoops_fail A B _ i j hi hj e]
      rfl
    · rw [operatorMul_eq, if_neg (fun c => c hinner),
        productLoops_fail Bt At _ j i (by omega) (by omega)
          (by rw [hacc_eq i j hi hj]; exact e)]
      rfl

/-- C20: for matrices `A`, `B` (satisfying the representation invariant) with
`A.columns == B.rows`, both transposes return, the product `transpose(B) * transpose(A)`
has agreeing inner dimensions, and the `int` accumulation of its element `(j, i)` runs over
the shared index in the same order and equals that of element `(i, j)` of `A * B`.
Consequently either both products run into the same undefined accumulation, or
`A * B = P`, `transpose(P) = Pt`, `transpose(B) * transpose(A) = Q` all return with
`Pt = Q` element for element, `operator==` returning `true`, and both of shape
`(B.columns, A.rows)`; the latter is the case whenever every accumulation of `A * B` is
defined. -/
theorem transpose_product (A B : Matrix) (hA : A.WF) (hB : B.WF) (h : A.columns = B.rows) :
    ∃ At Bt, transpose A = some At ∧ transpose B = some Bt ∧ Bt.columns = At.rows ∧
      (∀ i j, i < A.rows → j < B.columns → accumulate Bt At j i = accumulate A B i j) ∧
      ((operatorMul A B = Res.ub ∧ operatorMul Bt At = Res.ub) ∨
        (∃ P Pt Q, operatorMul A B = Res.ok P ∧ transpose P = some Pt ∧
          operatorMul Bt At = Res.ok Q ∧ Pt = Q ∧ operatorEq Pt Q = some true ∧
          Pt.rows = B.columns ∧ Pt.columns = A.rows)) ∧
      ((∀ i j, i < A.rows → j < B.columns → accumulate A B i j ≠ none) →
        ∃ P, operatorMul A B = Res.ok P) :=
  transpose_product_correct A B hA hB h

theorem transpose_product_witness :
    (Matrix.mk 1 2 [[1, 2]]).WF ∧ (Matrix.mk 2 3 [[1, 0, 1], [0, 1, 1]]).WF ∧
    (Matrix.mk 1 2 [[1, 2]]).columns = (Matrix.mk 2 3 [[1, 0, 1], [0, 1, 1]]).rows ∧
    operatorMul (Matrix.mk 1 2 [[1, 2]]) (Matrix.mk 2 3 [[1, 0, 1], [0, 1, 1]]) =
      Res.ok (Matrix.mk 1 3 [[1, 2, 3]]) ∧
    transpose (Matrix.mk 1 3 [[1, 2, 3]]) = some (Matrix.mk 3 1 [[1], [2], [3]]) ∧
    operatorMul (Matrix.mk 3 2 [[1, 0], [0, 1], [1, 1]]) (Matrix.mk 2 1 [[1], [2]]) =
      Res.ok (Matrix.mk 3 1 [[1], [2], [3]]) ∧
    ∃ At Bt, transpose (Matrix.mk 1 2 [[1, 2]]) = some At ∧
      transpose (Matrix.mk 2 3 [[1, 0, 1], [0, 1, 1]]) = some Bt ∧
      Bt.columns = At.rows ∧
      (∀ i j, i < (Matrix.mk 1 2 [[1, 2]]).rows →
        j < (Matrix.mk 2 3 [[1, 0, 1], [0, 1, 1]]).columns →
        accumulate Bt At j i =
          accumulate (Matrix.mk 1 2 [[1, 2]]) (Matrix.mk 2 3 [[1, 0, 1], [0, 1, 1]]) i j) ∧
      ((operatorMul (Matrix.mk 1 2 [[1, 2]]) (Matrix.mk 2 3 [[1, 0, 1], [0, 1, 1]]) =
            Res.ub ∧ operatorMul Bt At = Res.ub) ∨
        (∃ P Pt Q,
          operatorMul (Matrix.mk 1 2 [[1, 2]]) (Matrix.mk 2 3 [[1, 0, 1], [0, 1, 1]]) =
            Res.ok P ∧ transpose P = some Pt ∧
          operatorMul Bt At = Res.ok Q ∧ Pt = Q ∧ operatorEq Pt Q = some true ∧
          Pt.rows = (Matrix.mk 2 3 [[1, 0, 1], [0, 1, 1]]).columns ∧
          Pt.columns = (Matrix.mk 1 2 [[1, 2]]).rows)) ∧
      ((∀ i j, i < (Matrix.mk 1 2 [[1, 2]]).rows →
          j < (Matrix.mk 2 3 [[1, 0, 1], [0, 1, 1]]).columns →
          accumulate (Matrix.mk 1 2 [[1, 2]]) (Matrix.mk 2 3 [[1, 0, 1], [0, 1, 1]]) i j ≠
            none) →
        ∃ P, operatorMul (Matrix.mk 1 2 [[1, 2]])
          (Matrix.mk 2 3 [[1, 0, 1], [0, 1, 1]]) = Res.ok P) :=
  ⟨by decide, by decide, by decide, by decide!, by decide!, by decide!,
    transpose_product _ _ (by decide) (by decide) (by decide)⟩

/-! ## Transpose and equality over elements that may be NaN -/

namespace IEEE

theorem ieee_mk3_matrix (row column : Nat) (value : Double) :
    (Matrix.mk3 row column value).matrix = List.replicate row (List.replicate column value) := by
  simp [Matrix.mk3, Matrix.initMatrixValue, loop_push_back]

theorem ieee_mk3_WF (row column : Nat) (value : Double) : (Matrix.mk3 row column value).WF := by
  refine ⟨?_, ?_⟩
  · simp [ieee_mk3_matrix]; rfl
  · intro r hr
    rw [ieee_mk3_matrix] at hr
    rw [List.eq_of_mem_replicate hr]
    simp; rfl

theorem ieee_subscript_isSome (m : Matrix) (h : m.WF) (i j : Nat) (hi : i < m.rows)
    (hj : j < m.columns) : ∃ x, m.subscript i j = some x := by
  obtain ⟨hlen, hrow⟩ := h
  have hi' : i < m.matrix.length := by omega
  have hr : (m.matrix[i]).length = m.columns := hrow _ (List.getElem_mem _)
  have hj' : j < (m.matrix[i]).length := by omega
  exact ⟨(m.matrix[i])[j], by simp [Matrix.subscript, List.getElem?_eq_getElem, hi', hj']⟩

theorem ieee_subscriptSet_spec (m : Matrix) (h : m.WF) (i j : Nat) (v : Double) (hi : i < m.rows)
    (hj : j < m.columns) :
    ∃ m', m.subscriptSet i j v = some m' ∧ m'.WF ∧ m'.rows = m.rows ∧
      m'.columns = m.columns ∧
      ∀ a b, m'.subscript a b = if a = i ∧ b = j then some v else m.subscript a b := by
  obtain ⟨hlen, hrow⟩ := h
  have hi' : i < m.matrix.length := by omega
  have hr : (m.matrix[i]).length = m.columns := hrow _ (List.getElem_mem _)
  have hj' : j < (m.matrix[i]).length := by omega
  refine ⟨{ m with matrix := m.matrix.set i ((m.matrix[i]).set j v) }, ?_, ⟨?_, ?_⟩, rfl, rfl, ?_⟩
  · simp [Matrix.subscriptSet, List.getElem?_eq_getElem, hi', hj']
  · simpa using hlen
  · intro r hr'
    rcases List.mem_or_eq_of_mem_set hr' with h1 | h1
    · exact hrow r h1
    · simp [h1, hr]
  · intro a b
    by_cases ha : a = i
    · subst ha
      by_cases hb : b = j
      · subst hb
        simp [Matrix.subscript, List.getElem?_set, hi', hj']
      · have hb' : ¬ j = b := fun h => hb h.symm
        simp [Matrix.subscript, List.getElem?_set, hi', hb, hb', List.getElem?_eq_getElem]
    · have ha' : ¬ i = a := fun h => ha h.symm
      simp [Matrix.subscript, List.getElem?_set, ha, ha']

theorem ieee_matrix_ext (m m' : Matrix) (h : m.WF) (h' : m'.WF) (hr : m.rows = m'.rows)
    (hc : m.columns = m'.columns)
    (hsub : ∀ i j, i < m.rows → j < m.columns → m.subscript i j = m'.subscript i j) :
    m = m' := by
  obtain ⟨rows, columns, matrix⟩ := m
  obtain ⟨rows', columns', matrix'⟩ := m'
  obtain ⟨hlen, hrow⟩ := h
  obtain ⟨hlen', hrow'⟩ := h'
  simp only at hr hc hlen hlen' hrow hrow' hsub
  subst hr hc
  have : matrix = matrix' := by
    apply List.ext_getElem (by omega)
    intro i h1 h2
    have e1 : (matrix[i]).length = columns := hrow _ (List.getElem_mem _)
    have e2 : (matrix'[i]).length = columns := hrow' _ (List.getElem_mem _)
    apply List.ext_getElem (by omega)
    intro j h3 h4
    have := hsub i j (by omega) (by omega)
    simpa [Matrix.subscript, List.getElem?_eq_getElem, h1, h2, h3, h4] using this
  rw [this]

theorem ieee_transpose_correct (M : Matrix) (h : M.WF) :
    ∃ R, transpose M = some R ∧ R.WF ∧ R.rows = M.columns ∧ R.columns = M.rows ∧
      ∀ i j, i < M.rows → j < M.columns → R.subscript j i = M.subscript i j := by
  have key := forUpTo_inv
    (fun i (res : Matrix) => res.WF ∧ res.rows = M.columns ∧ res.columns = M.rows ∧
      ∀ a b, a < i → b < M.columns → res.subscript b a = M.subscript a b)
    M.rows
    (fun row result =>
      forUpTo M.columns (fun column result => do
        let x ← M.subscript row column
        result.subscriptSet column row x) result)
    (Matrix.mk3 M.columns M.rows (Double.fin 0))
    ⟨ieee_mk3_WF _ _ _, rfl, rfl, fun a b ha _ => absurd ha (Nat.not_lt_zero a)⟩
    (by
      intro i t hi ⟨tWF, tr, tc, tsub⟩
      have inner := forUpTo_inv
        (fun j (res : Matrix) => res.WF ∧ res.rows = M.columns ∧ res.columns = M.rows ∧
          ∀ a b, b < M.columns → (a < i ∨ (a = i ∧ b < j)) →
            res.subscript b a = M.subscript a b)
        M.columns
        (fun column result => do
          let x ← M.subscript i column
          result.subscriptSet column i x)
        t
        ⟨tWF, tr, tc, fun a b hb hab => by
          rcases hab with ha | ⟨_, hb0⟩
          · exact tsub a b ha hb
          · exact absurd hb0 (Nat.not_lt_zero b)⟩
        (by
          intro j u hj ⟨uWF, ur, uc, usub⟩
          obtain ⟨x, hx⟩ := ieee_subscript_isSome M h i j hi hj
          obtain ⟨u', hu', uWF', ur', uc', usub'⟩ :=
            ieee_subscriptSet_spec u uWF j i x (by omega) (by omega)
          refine ⟨u', by simp [hx, hu'], uWF', by omega, by omega, ?_⟩
          intro a b hb hab
          rw [usub']
          by_cases hc : b = j ∧ a = i
          · obtain ⟨rfl, rfl⟩ := hc
            simp [hx]
          · rw [if_neg hc]
            apply usub a b hb
            rcases hab with ha | ⟨ha, hbj⟩
            · exact Or.inl ha
            · refine Or.inr ⟨ha, ?_⟩
              have : b ≠ j := fun e => hc ⟨e, ha⟩
              omega)
      obtain ⟨u, hu, uWF, ur, uc, usub⟩ := inner
      refine ⟨u, hu, uWF, ur, uc, ?_⟩
      intro a b ha hb
      apply usub a b hb
      by_cases hai : a = i
      · exact Or.inr ⟨hai, hb⟩
      · exact Or.inl (by omega))
  obtain ⟨R, hR, RWF, Rr, Rc, Rsub⟩ := key
  exact ⟨R, hR, RWF, Rr, Rc, fun i j hi hj => Rsub i j hi hj⟩

theorem ne_self_iff (x : Double) : Double.ne x x = true ↔ x = Double.nan := by
  cases x <;> simp [Double.ne]

theorem ieee_operatorEq_self (A : Matrix) (h : A.WF) :
    ∃ b, operatorEq A A = some b ∧
      (b = true ↔ ∀ i j, i < A.rows → j < A.columns → A.subscript i j ≠ some Double.nan) := by
  have hbody : ∀ i j, i < A.rows → j < A.columns →
      ∃ o, (do
          let x ← A.subscript i j
          let y ← A.subscript i j
          if Double.ne x y then pure (some false) else pure none :
            Option (Option Bool)) = some o ∧
        (o = none ↔ A.subscript i j ≠ some Double.nan) := by
    intro i j hi hj
    obtain ⟨x, hx⟩ := ieee_subscript_isSome A h i j hi hj
    by_cases e : x = Double.nan
    · refine ⟨some false, ?_, ?_⟩
      · rw [hx, e]
        rfl
      · simp [hx, e]
    · refine ⟨none, ?_, ?_⟩
      · have hne : Double.ne x x = false := by
          cases hb : Double.ne x x with
          | false => rfl
          | true => exact absurd ((ne_self_iff x).mp hb) e
        rw [hx]
        show (if Double.ne x x = true then some (some false) else some none) = some none
        rw [hne]
        rfl
      · simp [hx, e]
  have hinner : ∀ i, i < A.rows →
      ∃ o, forRet A.columns (fun column => do
          let x ← A.subscript i column
          let y ← A.subscript i column
          if Double.ne x y then pure (some false) else pure none) = some o ∧
        (o = none ↔ ∀ j, j < A.columns → A.subscript i j ≠ some Double.nan) := by
    intro i hi
    have htot : ∀ j, j < A.columns → ∃ o, (do
          let x ← A.subscript i j
          let y ← A.subscript i j
          if Double.ne x y then pure (some false) else pure none :
            Option (Option Bool)) = some o :=
      fun j hj => let ⟨o, ho, _⟩ := hbody i j hi hj; ⟨o, ho⟩
    obtain ⟨o, ho⟩ := forRet_total _ _ htot
    refine ⟨o, ho, ?_⟩
    have hiff := forRet_none_iff _ _ htot
    constructor
    · intro ho' j hj
      rw [ho'] at ho
      have hb := hiff.mp ho j hj
      obtain ⟨o', hb', hb''⟩ := hbody i j hi hj
      rw [hb'] at hb
      exact hb''.mp (Option.some.inj hb)
    · intro hall
      have : forRet A.columns (fun column => do
          let x ← A.subscript i column
          let y ← A.subscript i column
          if Double.ne x y then pure (some false) else pure none) = some none := by
        apply hiff.mpr
        intro j hj
        obtain ⟨o', hb', hb''⟩ := hbody i j hi hj
        rw [hb', hb''.mpr (hall j hj)]
      rw [ho] at this
      exact Option.some.inj this
  have htot : ∀ i, i < A.rows → ∃ o, forRet A.columns (fun column => do
        let x ← A.subscript i column
        let y ← A.subscript i column
        if Double.ne x y then pure (some false) else pure none) = some o :=
    fun i hi => let ⟨o, ho, _⟩ := hinner i hi; ⟨o, ho⟩
  obtain ⟨o, ho⟩ := forRet_total _ _ htot
  have hiff := forRet_none_iff _ _ htot
  have hval : ∀ w, o = some w → w = false := by
    intro w hw
    rw [hw] at ho
    obtain ⟨i, hi, hb⟩ := forRet_some_val _ _ w ho
    obtain ⟨j, hj, hb2⟩ := forRet_some_val _ _ w hb
    obtain ⟨x, hx⟩ := ieee_subscript_isSome A h i j hi hj
    rw [hx] at hb2
    have hb3 : (if Double.ne x x = true then some (some false) else some none) =
        some (some w) := hb2
    split at hb3
    · simp only [Option.some.injEq] at hb3
      exact hb3.symm
    · simp at hb3
  have e1 : operatorEq A A = some (o.getD true) := by
    unfold operatorEq
    rw [if_neg (fun c => c rfl), if_neg (fun c => c rfl), ho]
    rfl
  refine ⟨o.getD true, e1, ?_⟩
  have hnone : o = none ↔
      ∀ i j, i < A.rows → j < A.columns → A.subscript i j ≠ some Double.nan := by
    constructor
    · intro ho' i j hi hj
      rw [ho'] at ho
      have hb := hiff.mp ho i hi
      obtain ⟨o', hb', hb''⟩ := hinner i hi
      rw [hb'] at hb
      exact hb''.mp (Option.some.inj hb) j hj
    · intro hall
      have : forRet A.rows (fun row =>
          forRet A.columns (fun column => do
            let x ← A.subscript row column
            let y ← A.subscript row column
            if Double.ne x y then pure (some false) else pure none)) = some none := by
        apply hiff.mpr
        intro i hi
        obtain ⟨o', hb', hb''⟩ := hinner i hi
        rw [hb', hb''.mpr (fun j hj => hall i j hi hj)]
      rw [ho] at this
      exact Option.some.inj this
  cases o with
  | none => exact ⟨fun _ => hnone.mp rfl, fun _ => rfl⟩
  | some w =>
    have hw := hval w rfl
    subst hw
    constructor
    · intro c
      simp at c
    · intro hall
      have := hnone.mpr hall
      simp at this

/-- C6, refuted as stated: the fill constructor builds `Matrix(1, 1, NaN)`, that is
`[[NaN]]`; its transpose is `[[NaN]]` again, and `operator==` of the double transpose with
the matrix returns `false`, because `NaN != NaN` is true.  Likewise the double transpose of
`A = [[NaN, 1], [2, 3]]` is `A`, element for element, and `operator==` of it with `A`
returns `false`. -/
theorem transpose_involution_nan :
    Matrix.mk3 1 1 Double.nan = Matrix.mk 1 1 [[Double.nan]] ∧
    transpose (Matrix.mk 1 1 [[Double.nan]]) = some (Matrix.mk 1 1 [[Double.nan]]) ∧
    operatorEq (Matrix.mk 1 1 [[Double.nan]]) (Matrix.mk 1 1 [[Double.nan]]) = some false ∧
    transpose (Matrix.mk 2 2 [[Double.nan, Double.fin 1], [Double.fin 2, Double.fin 3]]) =
      some (Matrix.mk 2 2 [[Double.nan, Double.fin 2], [Double.fin 1, Double.fin 3]]) ∧
    transpose (Matrix.mk 2 2 [[Double.nan, Double.fin 2], [Double.fin 1, Double.fin 3]]) =
      some (Matrix.mk 2 2 [[Double.nan, Double.fin 1], [Double.fin 2, Double.fin 3]]) ∧
    operatorEq (Matrix.mk 2 2 [[Double.nan, Double.fin 1], [Double.fin 2, Double.fin 3]])
      (Matrix.mk 2 2 [[Double.nan, Double.fin 1], [Double.fin 2, Double.fin 3]]) =
      some false := by
  decide!

/-- C6, amended: for every matrix `A` (satisfying the representation invariant) both
transposes return and the double transpose is `A` itself: it has the shape of `A` and
every element of `A`, NaN and infinities included, at its original position.
`operator==` applied to the double transpose and `A` returns `true` exactly when no element
of `A` is NaN, and `false` as soon as one element is. -/
theorem transpose_involution_ieee (A : Matrix) (h : A.WF) :
    ∃ T TT, transpose A = some T ∧ transpose T = some TT ∧ TT = A ∧
      (operatorEq TT A = some true ↔
        ∀ i j, i < A.rows → j < A.columns → A.subscript i j ≠ some Double.nan) ∧
      ((∃ i j, i < A.rows ∧ j < A.columns ∧ A.subscript i j = some Double.nan) →
        operatorEq TT A = some false) := by
  obtain ⟨T, hT, TWF, Tr, Tc, Tsub⟩ := ieee_transpose_correct A h
  obtain ⟨TT, hTT, TTWF, TTr, TTc, TTsub⟩ := ieee_transpose_correct T TWF
  have hEq : TT = A := by
    apply ieee_matrix_ext TT A TTWF h (by omega) (by omega)
    intro i j hi hj
    rw [TTsub j i (by omega) (by omega), Tsub i j (by omega) (by omega)]
  obtain ⟨b, hb, hiff⟩ := ieee_operatorEq_self A h
  refine ⟨T, TT, hT, hTT, hEq, ?_, ?_⟩
  · rw [hEq, hb]
    constructor
    · intro e
      exact hiff.mp (Option.some.inj e)
    · intro hall
      rw [hiff.mpr hall]
  · rintro ⟨i, j, hi, hj, e⟩
    rw [hEq, hb]
    cases b with
    | false => rfl
    | true => exact absurd e (hiff.mp rfl i j hi hj)

theorem transpose_involution_ieee_witness :
    (Matrix.mk 2 3 [[Double.fin 1, Double.fin 2, Double.pinf],
      [Double.fin 4, Double.fin (1 / 2), Double.fin 6]]).WF ∧
    ∃ T TT,
      transpose (Matrix.mk 2 3 [[Double.fin 1, Double.fin 2, Double.pinf],
        [Double.fin 4, Double.fin (1 / 2), Double.fin 6]]) = some T ∧
      transpose T = some TT ∧
      TT = Matrix.mk 2 3 [[Double.fin 1, Double.fin 2, Double.pinf],
        [Double.fin 4, Double.fin (1 / 2), Double.fin 6]] ∧
      (operatorEq TT (Matrix.mk 2 3 [[Double.fin 1, Double.fin 2, Double.pinf],
          [Double.fin 4, Double.fin (1 / 2), Double.fin 6]]) = some true ↔
        ∀ i j, i < (Matrix.mk 2 3 [[Double.fin 1, Double.fin 2, Double.pinf],
            [Double.fin 4, Double.fin (1 / 2), Double.fin 6]]).rows →
          j < (Matrix.mk 2 3 [[Double.fin 1, Double.fin 2, Double.pinf],
            [Double.fin 4, Double.fin (1 / 2), Double.fin 6]]).columns →
          (Matrix.mk 2 3 [[Double.fin 1, Double.fin 2, Double.pinf],
            [Double.fin 4, Double.fin (1 / 2), Double.fin 6]]).subscript i j ≠
              some Double.nan) ∧
      ((∃ i j, i < (Matrix.mk 2 3 [[Double.fin 1, Double.fin 2, Double.pinf],
            [Double.fin 4, Double.fin (1 / 2), Double.fin 6]]).rows ∧
          j < (Matrix.mk 2 3 [[Double.fin 1, Double.fin 2, Double.pinf],
            [Double.fin 4, Double.fin (1 / 2), Double.fin 6]]).columns ∧
          (Matrix.mk 2 3 [[Double.fin 1, Double.fin 2, Double.pinf],
            [Double.fin 4, Double.fin (1 / 2), Double.fin 6]]).subscript i j =
              some Double.nan) →
        operatorEq TT (Matrix.mk 2 3 [[Double.fin 1, Double.fin 2, Double.pinf],
          [Double.fin 4, Double.fin (1 / 2), Double.fin 6]]) = some false) :=
  ⟨by decide, transpose_involution_ieee _ (by decide)⟩

end IEEE

end MatAlg
